import Mathlib

/-!
Verification development for the instant-netboot repository.

The development shallowly embeds the boot-loader-entries crate (the nom
parser in parser.rs, the UAPI data model and Display/FromStr impls in
uapi.rs, the syslinux dialect in syslinux.rs) and the request router of
instant-netboot (instant_netboot.rs).  Strings are modelled as `List Char`
(the code only ever handles valid UTF-8 text; the `Path::to_str` failure
branch for non-UTF-8 request paths is therefore unreachable in the model,
and `Path` values are modelled by their textual rendering).  Fallible Rust
code is modelled with `Option`/`Except`; the `panic!` in `make_ip_option`
is modelled as `Option.none`.
-/

namespace InstantNetboot

/-- Unicode white-space characters, the set recognized by the char
whitespace test used by the parser to split option tokens. -/
def rustIsWhitespace (c : Char) : Bool :=
  c = ' ' || c = '\t' || c = '\n' || c.toNat = 0x0b || c.toNat = 0x0c || c = '\r' ||
  c.toNat = 0x85 || c.toNat = 0xa0 || c.toNat = 0x1680 ||
  (0x2000 ≤ c.toNat && c.toNat ≤ 0x200a) ||
  c.toNat = 0x2028 || c.toNat = 0x2029 || c.toNat = 0x202f ||
  c.toNat = 0x205f || c.toNat = 0x3000

/-- Matches a line ending character (parser.rs `is_line_ending`). -/
def isLineEndingChar (c : Char) : Bool :=
  c = '\r' || c = '\n'

/-- ASCII lower-casing, used to model the case-insensitive keyword tags
(the keywords are all ASCII). -/
def asciiLower (c : Char) : Char :=
  if 'A' ≤ c ∧ c ≤ 'Z' then Char.ofNat (c.toNat + 32) else c

/-- Model of nom `tag_no_case`: consume the tag case-insensitively,
returning the rest of the input. -/
def tagNoCase : List Char → List Char → Option (List Char)
  | [], s => some s
  | _ :: _, [] => none
  | t :: ts, c :: cs => if asciiLower c = asciiLower t then tagNoCase ts cs else none

/-- Maximal munch of spaces and tabs (the tail of nom `space1`). -/
def skipSpaces : List Char → List Char
  | c :: rest => if c = ' ' ∨ c = '\t' then skipSpaces rest else c :: rest
  | [] => []

/-- Model of nom `space1`: one or more spaces or tabs, maximal munch. -/
def spaces1 : List Char → Option (List Char)
  | c :: rest => if c = ' ' ∨ c = '\t' then some (skipSpaces rest) else none
  | [] => none

/-- Model of `non_space` (`split_at_position_complete(char::is_whitespace)`):
longest prefix of non-whitespace characters, possibly empty, never fails.
Returns (rest, taken). -/
def nonSpace (s : List Char) : List Char × List Char :=
  (s.dropWhile (fun c => !rustIsWhitespace c), s.takeWhile (fun c => !rustIsWhitespace c))

/-- Model of `single_string_argument` (`take_till1(is_line_ending)`): at
least one character up to the first line-ending character. -/
def singleStringArgument (s : List Char) : Option (List Char × List Char) :=
  if (s.takeWhile (fun c => !isLineEndingChar c)).isEmpty then none
  else some (s.dropWhile (fun c => !isLineEndingChar c), s.takeWhile (fun c => !isLineEndingChar c))

/-- Model of nom `line_ending`: exactly a bare newline or CRLF pair. -/
def lineEnding (s : List Char) : Option (List Char) :=
  match s with
  | c :: rest =>
      if c = '\n' then some rest
      else if c = '\r' then
        match rest with
        | c2 :: rest2 => if c2 = '\n' then some rest2 else none
        | [] => none
      else none
  | [] => none

/-- Model of `opt(line_ending)`: consume a single line ending if present. -/
def optLineEnding (s : List Char) : List Char :=
  (lineEnding s).getD s

theorem skipSpaces_suffix : ∀ s : List Char, (skipSpaces s).IsSuffix s := by
  intro s
  induction s with
  | nil => exact List.suffix_refl []
  | cons c rest ih =>
      by_cases h : c = ' ' ∨ c = '\t'
      · simpa [skipSpaces, h] using ih.trans (List.suffix_cons c rest)
      · simp [skipSpaces, h]

theorem spaces1_suffix {s s1 : List Char} (h : spaces1 s = some s1) : s1.IsSuffix s := by
  cases s with
  | nil => simp [spaces1] at h
  | cons c rest =>
      by_cases hc : c = ' ' ∨ c = '\t'
      · simp [spaces1, hc] at h
        subst h
        exact (skipSpaces_suffix rest).trans (List.suffix_cons c rest)
      · simp [spaces1, hc] at h

theorem spaces1_length_lt {s s1 : List Char} (h : spaces1 s = some s1) :
    s1.length < s.length := by
  cases s with
  | nil => simp [spaces1] at h
  | cons c rest =>
      by_cases hc : c = ' ' ∨ c = '\t'
      · simp only [spaces1, hc, if_true, Option.some.injEq] at h
        subst h
        exact Nat.lt_succ_of_le (skipSpaces_suffix rest).length_le
      · simp [spaces1, hc] at h

theorem dropWhile_suffix (p : Char → Bool) : ∀ s : List Char, (s.dropWhile p).IsSuffix s := by
  intro s
  induction s with
  | nil => exact List.suffix_refl []
  | cons c rest ih =>
      by_cases h : p c
      · simpa [List.dropWhile, h] using ih.trans (List.suffix_cons c rest)
      · simp [List.dropWhile, h]

theorem nonSpace_suffix (s : List Char) : (nonSpace s).1.IsSuffix s :=
  dropWhile_suffix _ s

theorem singleStringArgument_eq {s rest arg : List Char}
    (h : singleStringArgument s = some (rest, arg)) :
    rest = s.dropWhile (fun c => !isLineEndingChar c) ∧
    arg = s.takeWhile (fun c => !isLineEndingChar c) ∧ arg ≠ [] := by
  unfold singleStringArgument at h
  split at h
  · exact absurd h (by simp)
  · next he =>
      simp only [Option.some.injEq, Prod.mk.injEq] at h
      refine ⟨h.1.symm, h.2.symm, ?_⟩
      rw [h.2] at he
      simpa using he

theorem singleStringArgument_suffix {s rest arg : List Char}
    (h : singleStringArgument s = some (rest, arg)) : rest.IsSuffix s := by
  rw [(singleStringArgument_eq h).1]
  exact dropWhile_suffix _ s

theorem tagNoCase_suffix : ∀ (t s s1 : List Char), tagNoCase t s = some s1 → s1.IsSuffix s := by
  intro t
  induction t with
  | nil =>
      intro s s1 h
      simp only [tagNoCase, Option.some.injEq] at h
      subst h
      exact List.suffix_refl s
  | cons tc ts ih =>
      intro s s1 h
      cases s with
      | nil => simp [tagNoCase] at h
      | cons c cs =>
          by_cases hc : asciiLower c = asciiLower tc
          · simp only [tagNoCase, hc, if_true] at h
            exact (ih cs s1 h).trans (List.suffix_cons c cs)
          · simp [tagNoCase, hc] at h

theorem lineEnding_eq_some {s s1 : List Char} (h : lineEnding s = some s1) :
    s = '\n' :: s1 ∨ s = '\r' :: '\n' :: s1 := by
  cases s with
  | nil => simp [lineEnding] at h
  | cons c rest =>
      simp only [lineEnding] at h
      split at h
      · next hc =>
          left
          simp only [Option.some.injEq] at h
          rw [hc, h]
      · split at h
        · next hc2 =>
            split at h
            · next c2 rest2 =>
                split at h
                · next h2 =>
                    right
                    simp only [Option.some.injEq] at h
                    rw [hc2, h2, h]
                · exact absurd h (by simp)
            · exact absurd h (by simp)
        · exact absurd h (by simp)

theorem lineEnding_suffix {s s1 : List Char} (h : lineEnding s = some s1) : s1.IsSuffix s := by
  rcases lineEnding_eq_some h with h1 | h1 <;> subst h1
  · exact List.suffix_cons _ _
  · exact (List.suffix_cons _ _).trans (List.suffix_cons _ _)

theorem lineEnding_length_lt {s s1 : List Char} (h : lineEnding s = some s1) :
    s1.length < s.length := by
  rcases lineEnding_eq_some h with h1 | h1 <;> subst h1 <;> simp <;> omega

/-- Maximal munch of further line endings (the tail of `many1(line_ending)`). -/
def skipLineEndings (s : List Char) : List Char :=
  match h : lineEnding s with
  | some s1 => skipLineEndings s1
  | none => s
termination_by s.length
decreasing_by exact lineEnding_length_lt h

theorem skipLineEndings_suffix (s : List Char) : (skipLineEndings s).IsSuffix s := by
  generalize hgen : s.length = n
  induction n using Nat.strong_induction_on generalizing s with
  | _ n ih =>
      subst hgen
      rw [skipLineEndings.eq_def]
      split
      · next s1 h =>
          exact (ih s1.length (lineEnding_length_lt h) s1 rfl).trans (lineEnding_suffix h)
      · exact List.suffix_refl s

theorem skipLineEndings_of_none {s : List Char} (h : lineEnding s = none) :
    skipLineEndings s = s := by
  rw [skipLineEndings.eq_def]
  split
  · next s1 h1 => rw [h] at h1; exact absurd h1 (by simp)
  · rfl

/-- Model of `many1(line_ending)`: one or more line endings, maximal munch. -/
def many1LineEnding (s : List Char) : Option (List Char) :=
  (lineEnding s).map skipLineEndings

theorem many1LineEnding_suffix {s s1 : List Char} (h : many1LineEnding s = some s1) :
    s1.IsSuffix s := by
  unfold many1LineEnding at h
  cases hle : lineEnding s with
  | none => rw [hle] at h; exact absurd h (by simp)
  | some s2 =>
      rw [hle] at h
      simp at h
      subst h
      exact (skipLineEndings_suffix s2).trans (lineEnding_suffix hle)

theorem many1LineEnding_length_lt {s s1 : List Char} (h : many1LineEnding s = some s1) :
    s1.length < s.length := by
  unfold many1LineEnding at h
  cases hle : lineEnding s with
  | none => rw [hle] at h; exact absurd h (by simp)
  | some s2 =>
      rw [hle] at h
      simp at h
      subst h
      exact Nat.lt_of_le_of_lt (skipLineEndings_suffix s2).length_le (lineEnding_length_lt hle)

/-- Model of `space_separated_list = separated_list0(space1, non_space)`,
loop part: after the first element, repeatedly consume a separator and an
element.  The separator `space1` always consumes at least one character
when it succeeds, so nom's infinite-loop check never fires, and the
element parser `non_space` never fails, so the loop ends exactly when the
separator fails, returning the input from before the failed separator. -/
def sepListLoop (acc : List (List Char)) (s : List Char) : List Char × List (List Char) :=
  match h : spaces1 s with
  | none => (s, acc.reverse)
  | some s1 => sepListLoop ((nonSpace s1).2 :: acc) (nonSpace s1).1
termination_by s.length
decreasing_by
  exact Nat.lt_of_le_of_lt (nonSpace_suffix s1).length_le (spaces1_length_lt h)

/-- Model of `space_separated_list`: first element, then the separator
loop. -/
def spaceSeparatedList (s : List Char) : List Char × List (List Char) :=
  sepListLoop [(nonSpace s).2] (nonSpace s).1

theorem sepListLoop_suffix (acc : List (List Char)) (s : List Char) :
    (sepListLoop acc s).1.IsSuffix s := by
  generalize hgen : s.length = n
  induction n using Nat.strong_induction_on generalizing acc s with
  | _ n ih =>
      subst hgen
      rw [sepListLoop.eq_def]
      split
      · exact List.suffix_refl s
      · next s1 hsp =>
          exact (ih (nonSpace s1).1.length
              (Nat.lt_of_le_of_lt (nonSpace_suffix s1).length_le (spaces1_length_lt hsp))
              _ _ rfl).trans ((nonSpace_suffix s1).trans (spaces1_suffix hsp))

theorem spaceSeparatedList_suffix (s : List Char) :
    (spaceSeparatedList s).1.IsSuffix s :=
  (sepListLoop_suffix _ _).trans (nonSpace_suffix s)

/-- The boot entry keys of the UAPI dialect (uapi.rs `EntryKey`). -/
inductive EntryKey where
  | Title : List Char → EntryKey
  | Linux : List Char → EntryKey
  | Devicetree : List Char → EntryKey
  | Options : List (List Char) → EntryKey
deriving DecidableEq

/-- Parser for a `linux` entry key (parser.rs `linux`). -/
def linuxKey (input : List Char) : Option (List Char × EntryKey) :=
  match tagNoCase "linux".data input with
  | none => none
  | some s =>
      match spaces1 s with
      | none => none
      | some s1 =>
          match singleStringArgument s1 with
          | none => none
          | some (rest, path) => some (rest, EntryKey.Linux path)

/-- Parser for a `devicetree` entry key (parser.rs `devicetree`). -/
def devicetreeKey (input : List Char) : Option (List Char × EntryKey) :=
  match tagNoCase "devicetree".data input with
  | none => none
  | some s =>
      match spaces1 s with
      | none => none
      | some s1 =>
          match singleStringArgument s1 with
          | none => none
          | some (rest, path) => some (rest, EntryKey.Devicetree path)

/-- Parser for an `options` entry key (parser.rs `options`). -/
def optionsKey (input : List Char) : Option (List Char × EntryKey) :=
  match tagNoCase "options".data input with
  | none => none
  | some s =>
      match spaces1 s with
      | none => none
      | some s1 => some ((spaceSeparatedList s1).1, EntryKey.Options (spaceSeparatedList s1).2)

/-- Parser for a `title` entry key (parser.rs `title`). -/
def titleKey (input : List Char) : Option (List Char × EntryKey) :=
  match tagNoCase "title".data input with
  | none => none
  | some s =>
      match spaces1 s with
      | none => none
      | some s1 =>
          match singleStringArgument s1 with
          | none => none
          | some (rest, title) => some (rest, EntryKey.Title title)

/-- Model of `entry_key`: the four key parsers tried in order
(`linux.or(devicetree).or(options).or(title)`). -/
def entry_key (input : List Char) : Option (List Char × EntryKey) :=
  match linuxKey input with
  | some r => some r
  | none =>
      match devicetreeKey input with
      | some r => some r
      | none =>
          match optionsKey input with
          | some r => some r
          | none => titleKey input

theorem linuxKey_suffix {input rest : List Char} {k : EntryKey}
    (h : linuxKey input = some (rest, k)) : rest.IsSuffix input := by
  unfold linuxKey at h
  split at h
  · exact absurd h (by simp)
  · next s hs =>
      split at h
      · exact absurd h (by simp)
      · next s1 hs1 =>
          split at h
          · exact absurd h (by simp)
          · next r p harg =>
              simp only [Option.some.injEq, Prod.mk.injEq] at h
              rw [← h.1]
              exact ((singleStringArgument_suffix harg).trans (spaces1_suffix hs1)).trans
                (tagNoCase_suffix _ _ _ hs)

theorem devicetreeKey_suffix {input rest : List Char} {k : EntryKey}
    (h : devicetreeKey input = some (rest, k)) : rest.IsSuffix input := by
  unfold devicetreeKey at h
  split at h
  · exact absurd h (by simp)
  · next s hs =>
      split at h
      · exact absurd h (by simp)
      · next s1 hs1 =>
          split at h
          · exact absurd h (by simp)
          · next r p harg =>
              simp only [Option.some.injEq, Prod.mk.injEq] at h
              rw [← h.1]
              exact ((singleStringArgument_suffix harg).trans (spaces1_suffix hs1)).trans
                (tagNoCase_suffix _ _ _ hs)

theorem optionsKey_suffix {input rest : List Char} {k : EntryKey}
    (h : optionsKey input = some (rest, k)) : rest.IsSuffix input := by
  unfold optionsKey at h
  split at h
  · exact absurd h (by simp)
  · next s hs =>
      split at h
      · exact absurd h (by simp)
      · next s1 hs1 =>
          simp only [Option.some.injEq, Prod.mk.injEq] at h
          rw [← h.1]
          exact ((spaceSeparatedList_suffix s1).trans (spaces1_suffix hs1)).trans
            (tagNoCase_suffix _ _ _ hs)

theorem titleKey_suffix {input rest : List Char} {k : EntryKey}
    (h : titleKey input = some (rest, k)) : rest.IsSuffix input := by
  unfold titleKey at h
  split at h
  · exact absurd h (by simp)
  · next s hs =>
      split at h
      · exact absurd h (by simp)
      · next s1 hs1 =>
          split at h
          · exact absurd h (by simp)
          · next r p harg =>
              simp only [Option.some.injEq, Prod.mk.injEq] at h
              rw [← h.1]
              exact ((singleStringArgument_suffix harg).trans (spaces1_suffix hs1)).trans
                (tagNoCase_suffix _ _ _ hs)

theorem entry_key_suffix {input rest : List Char} {k : EntryKey}
    (h : entry_key input = some (rest, k)) : rest.IsSuffix input := by
  unfold entry_key at h
  split at h
  · next r hl =>
      simp only [Option.some.injEq] at h
      subst h
      exact linuxKey_suffix hl
  · split at h
    · next r hd =>
        simp only [Option.some.injEq] at h
        subst h
        exact devicetreeKey_suffix hd
    · split at h
      · next r ho =>
          simp only [Option.some.injEq] at h
          subst h
          exact optionsKey_suffix ho
      · exact titleKey_suffix h

/-- Loop of `separated_list0(many1(line_ending), entry_key)`: repeatedly
consume one or more line endings and the next entry key.  When the key
parser fails after the separator, the separator is not consumed (nom
returns the input from before the separator). -/
def sepKeys (acc : List EntryKey) (s : List Char) : List Char × List EntryKey :=
  match h1 : many1LineEnding s with
  | none => (s, acc.reverse)
  | some s1 =>
      match h2 : entry_key s1 with
      | none => (s, acc.reverse)
      | some (s2, k) => sepKeys (k :: acc) s2
termination_by s.length
decreasing_by
  exact Nat.lt_of_le_of_lt (entry_key_suffix h2).length_le (many1LineEnding_length_lt h1)

/-- Model of `boot_entry`:
`terminated(separated_list0(many1(line_ending), entry_key), opt(line_ending))`.
The parser never fails outright: a leading unparsable line yields the empty
key list with the whole input as remainder. -/
def boot_entry (s : List Char) : List Char × List EntryKey :=
  match entry_key s with
  | none => (optLineEnding s, [])
  | some (s1, k) => (optLineEnding (sepKeys [k] s1).1, (sepKeys [k] s1).2)

/-- An ordered sequence of entry keys (uapi.rs `BootEntry`). -/
structure BootEntry where
  keys : List EntryKey
deriving DecidableEq

/-- Model of `FromStr for BootEntry` (the caller-level parse API): run the
low-level parser and additionally fail if any text remains. -/
def bootEntryFromStr (s : List Char) : Option BootEntry :=
  if (boot_entry s).1 = [] then some ⟨(boot_entry s).2⟩ else none

/-- Space-joined rendering of a token list (`options.join(" ")`). -/
def joinSpace : List (List Char) → List Char
  | [] => []
  | [t] => t
  | t :: t2 :: ts => t ++ ' ' :: joinSpace (t2 :: ts)

/-- Model of `Display for EntryKey`: lowercase keyword, one space, the
literal argument. -/
def renderEntryKey : EntryKey → List Char
  | .Linux p => "linux ".data ++ p
  | .Devicetree p => "devicetree ".data ++ p
  | .Options ts => "options ".data ++ joinSpace ts
  | .Title t => "title ".data ++ t

/-- Rendering of a key sequence, each key followed by a bare newline
(`Display for BootEntry`). -/
def renderKeys : List EntryKey → List Char
  | [] => []
  | k :: ks => renderEntryKey k ++ '\n' :: renderKeys ks

/-- Model of `Display for BootEntry`. -/
def renderBootEntry (e : BootEntry) : List Char :=
  renderKeys e.keys

theorem skipLineEndings_step {s s1 : List Char} (h : lineEnding s = some s1) :
    skipLineEndings s = skipLineEndings s1 := by
  rw [skipLineEndings.eq_def]
  split
  · next s2 h2 => rw [h] at h2; simp at h2; rw [h2]
  · next h2 => rw [h] at h2; exact absurd h2 (by simp)

theorem sepListLoop_none {s : List Char} (h : spaces1 s = none) (acc : List (List Char)) :
    sepListLoop acc s = (s, acc.reverse) := by
  rw [sepListLoop.eq_def]
  split
  · rfl
  · next s1 h1 => rw [h] at h1; exact absurd h1 (by simp)

theorem sepListLoop_step {s s1 : List Char} (h : spaces1 s = some s1) (acc : List (List Char)) :
    sepListLoop acc s = sepListLoop ((nonSpace s1).2 :: acc) (nonSpace s1).1 := by
  rw [sepListLoop.eq_def]
  split
  · next h1 => rw [h] at h1; exact absurd h1 (by simp)
  · next s2 h1 =>
      rw [h] at h1
      simp at h1
      rw [h1]

theorem sepKeys_none {s : List Char} (h : many1LineEnding s = none) (acc : List EntryKey) :
    sepKeys acc s = (s, acc.reverse) := by
  rw [sepKeys.eq_def]
  split
  · rfl
  · next s1 h1 => rw [h] at h1; exact absurd h1 (by simp)

theorem sepKeys_stop {s s1 : List Char} (h : many1LineEnding s = some s1)
    (h2 : entry_key s1 = none) (acc : List EntryKey) :
    sepKeys acc s = (s, acc.reverse) := by
  rw [sepKeys.eq_def]
  split
  · rfl
  · next s3 h1 =>
      rw [h] at h1
      simp at h1
      subst h1
      split
      · rfl
      · next s4 k4 h4 => rw [h2] at h4; exact absurd h4 (by simp)

theorem sepKeys_step {s s1 s2 : List Char} {k : EntryKey} (h : many1LineEnding s = some s1)
    (h2 : entry_key s1 = some (s2, k)) (acc : List EntryKey) :
    sepKeys acc s = sepKeys (k :: acc) s2 := by
  rw [sepKeys.eq_def]
  split
  · next h1 => rw [h] at h1; exact absurd h1 (by simp)
  · next s3 h1 =>
      rw [h] at h1
      simp at h1
      subst h1
      split
      · next h4 => rw [h2] at h4; exact absurd h4 (by simp)
      · next s4 k4 h4 =>
          rw [h2] at h4
          simp at h4
          rw [h4.1, h4.2]

/-- Arguments producible by `single_string_argument` after the maximal
`space1`: nonempty, free of line-ending characters, and not starting with
a space or tab (those would have been consumed by `space1`). -/
def argOk (a : List Char) : Prop :=
  a ≠ [] ∧ (∀ c ∈ a, isLineEndingChar c = false) ∧
    (∀ c, a.head? = some c → ¬(c = ' ' ∨ c = '\t'))

/-- Token lists producible by `space_separated_list`: nonempty, every
token free of whitespace, and only the final token possibly empty. -/
def tokensOk (ts : List (List Char)) : Prop :=
  ts ≠ [] ∧ (∀ t ∈ ts, ∀ c ∈ t, rustIsWhitespace c = false) ∧
    (∀ t ∈ ts.dropLast, t ≠ [])

/-- Entry keys producible by the `entry_key` parser. -/
def wfKey : EntryKey → Prop
  | .Title t => argOk t
  | .Linux p => argOk p
  | .Devicetree p => argOk p
  | .Options ts => tokensOk ts

theorem skipSpaces_head {s : List Char} :
    ∀ c, (skipSpaces s).head? = some c → ¬(c = ' ' ∨ c = '\t') := by
  induction s with
  | nil => intro c h; simp [skipSpaces] at h
  | cons a rest ih =>
      intro c h
      by_cases ha : a = ' ' ∨ a = '\t'
      · rw [skipSpaces, if_pos ha] at h
        exact ih c h
      · rw [skipSpaces, if_neg ha] at h
        simp at h
        subst h
        exact ha

theorem spaces1_head {s s1 : List Char} (h : spaces1 s = some s1) :
    ∀ c, s1.head? = some c → ¬(c = ' ' ∨ c = '\t') := by
  cases s with
  | nil => simp [spaces1] at h
  | cons a rest =>
      by_cases ha : a = ' ' ∨ a = '\t'
      · rw [spaces1, if_pos ha] at h
        simp at h
        subst h
        exact skipSpaces_head
      · rw [spaces1, if_neg ha] at h
        exact absurd h (by simp)

theorem takeWhile_head {p : Char → Bool} {s : List Char} {c : Char}
    (h : (s.takeWhile p).head? = some c) : s.head? = some c := by
  cases s with
  | nil => simp [List.takeWhile] at h
  | cons a rest =>
      by_cases ha : p a
      · simp only [List.takeWhile, ha] at h
        simp at h
        simp [h]
      · simp only [List.takeWhile] at h
        rw [Bool.eq_false_iff.mpr ha] at h
        simp at h

theorem singleStringArgument_argOk {s rest arg : List Char}
    (h : singleStringArgument s = some (rest, arg))
    (hh : ∀ c, s.head? = some c → ¬(c = ' ' ∨ c = '\t')) : argOk arg := by
  obtain ⟨-, harg, hne⟩ := singleStringArgument_eq h
  refine ⟨hne, ?_, ?_⟩
  · intro c hc
    rw [harg] at hc
    have := List.mem_takeWhile_imp hc
    simpa using this
  · intro c hc
    rw [harg] at hc
    exact hh c (takeWhile_head hc)

theorem nonSpace_token_wsFree {s : List Char} :
    ∀ c ∈ (nonSpace s).2, rustIsWhitespace c = false := by
  intro c hc
  have := List.mem_takeWhile_imp hc
  simpa using this

theorem nonSpace_rest_of_empty {s : List Char} (h : (nonSpace s).2 = []) :
    (nonSpace s).1 = s := by
  unfold nonSpace at h ⊢
  simp only at h ⊢
  cases s with
  | nil => simp
  | cons a rest =>
      by_cases ha : rustIsWhitespace a
      · simp [List.dropWhile, ha]
      · simp [List.takeWhile, ha] at h

theorem spaces1_none_of_head {s : List Char}
    (hh : ∀ c, s.head? = some c → ¬(c = ' ' ∨ c = '\t')) : spaces1 s = none := by
  cases s with
  | nil => rfl
  | cons a rest =>
      have := hh a (by rfl)
      rw [spaces1, if_neg this]

theorem dropLast_reverse_eq (l : List (List Char)) : l.reverse.dropLast = l.tail.reverse := by
  cases l with
  | nil => rfl
  | cons a rest =>
      simp only [List.reverse_cons, List.tail_cons]
      rw [List.dropLast_concat]

theorem sepListLoop_tokensOk (acc : List (List Char)) (s : List Char)
    (hne : acc ≠ [])
    (hws : ∀ t ∈ acc, ∀ c ∈ t, rustIsWhitespace c = false)
    (htl : ∀ t ∈ acc.tail, t ≠ [])
    (hhd : acc.head? = some [] → spaces1 s = none) :
    tokensOk (sepListLoop acc s).2 := by
  generalize hgen : s.length = n
  induction n using Nat.strong_induction_on generalizing acc s with
  | _ n ih =>
      subst hgen
      cases hsp : spaces1 s with
      | none =>
          rw [sepListLoop_none hsp]
          refine ⟨by simpa using hne, ?_, ?_⟩
          · intro t ht
            exact hws t (by simpa using ht)
          · intro t ht
            rw [dropLast_reverse_eq] at ht
            exact htl t (by simpa using ht)
      | some s1 =>
          rw [sepListLoop_step hsp]
          have hlen : (nonSpace s1).1.length < s.length :=
            Nat.lt_of_le_of_lt (nonSpace_suffix s1).length_le (spaces1_length_lt hsp)
          refine ih (nonSpace s1).1.length hlen _ _ (by simp) ?_ ?_ ?_ rfl
          · intro t ht
            rcases List.mem_cons.mp ht with h1 | h1
            · subst h1
              exact nonSpace_token_wsFree
            · exact hws t h1
          · intro t ht
            simp only [List.tail_cons] at ht
            rcases acc with _ | ⟨a, rest⟩
            · exact absurd rfl hne
            · rcases List.mem_cons.mp ht with h1 | h1
              · subst h1
                intro hnil
                have := hhd (by simp [hnil])
                rw [this] at hsp
                exact absurd hsp (by simp)
              · exact htl t (by simpa using h1)
          · intro hnil
            simp only [List.head?_cons, Option.some.injEq] at hnil
            rw [nonSpace_rest_of_empty hnil]
            exact spaces1_none_of_head (spaces1_head hsp)

theorem spaceSeparatedList_tokensOk {s : List Char}
    (hh : ∀ c, s.head? = some c → ¬(c = ' ' ∨ c = '\t')) :
    tokensOk (spaceSeparatedList s).2 := by
  unfold spaceSeparatedList
  refine sepListLoop_tokensOk _ _ (by simp) ?_ (by simp) ?_
  · intro t ht c hc
    rw [List.mem_singleton] at ht
    subst ht
    exact nonSpace_token_wsFree c hc
  · intro hnil
    simp only [List.head?_cons, Option.some.injEq] at hnil
    rw [nonSpace_rest_of_empty hnil]
    exact spaces1_none_of_head hh

theorem linuxKey_wf {input rest : List Char} {k : EntryKey}
    (h : linuxKey input = some (rest, k)) : wfKey k := by
  unfold linuxKey at h
  split at h
  · exact absurd h (by simp)
  · split at h
    · exact absurd h (by simp)
    · next s1 hs1 =>
        split at h
        · exact absurd h (by simp)
        · next r p harg =>
            simp only [Option.some.injEq, Prod.mk.injEq] at h
            rw [← h.2]
            exact singleStringArgument_argOk harg (spaces1_head hs1)

theorem devicetreeKey_wf {input rest : List Char} {k : EntryKey}
    (h : devicetreeKey input = some (rest, k)) : wfKey k := by
  unfold devicetreeKey at h
  split at h
  · exact absurd h (by simp)
  · split at h
    · exact absurd h (by simp)
    · next s1 hs1 =>
        split at h
        · exact absurd h (by simp)
        · next r p harg =>
            simp only [Option.some.injEq, Prod.mk.injEq] at h
            rw [← h.2]
            exact singleStringArgument_argOk harg (spaces1_head hs1)

theorem titleKey_wf {input rest : List Char} {k : EntryKey}
    (h : titleKey input = some (rest, k)) : wfKey k := by
  unfold titleKey at h
  split at h
  · exact absurd h (by simp)
  · split at h
    · exact absurd h (by simp)
    · next s1 hs1 =>
        split at h
        · exact absurd h (by simp)
        · next r p harg =>
            simp only [Option.some.injEq, Prod.mk.injEq] at h
            rw [← h.2]
            exact singleStringArgument_argOk harg (spaces1_head hs1)

theorem optionsKey_wf {input rest : List Char} {k : EntryKey}
    (h : optionsKey input = some (rest, k)) : wfKey k := by
  unfold optionsKey at h
  split at h
  · exact absurd h (by simp)
  · split at h
    · exact absurd h (by simp)
    · next s1 hs1 =>
        simp only [Option.some.injEq, Prod.mk.injEq] at h
        rw [← h.2]
        exact spaceSeparatedList_tokensOk (spaces1_head hs1)

theorem entry_key_wf {input rest : List Char} {k : EntryKey}
    (h : entry_key input = some (rest, k)) : wfKey k := by
  unfold entry_key at h
  split at h
  · next r hl =>
      simp only [Option.some.injEq] at h
      subst h
      exact linuxKey_wf hl
  · split at h
    · next r hd =>
        simp only [Option.some.injEq] at h
        subst h
        exact devicetreeKey_wf hd
    · split at h
      · next r ho =>
          simp only [Option.some.injEq] at h
          subst h
          exact optionsKey_wf ho
      · exact titleKey_wf h

theorem sepKeys_wf (acc : List EntryKey) (s : List Char)
    (hacc : ∀ k ∈ acc, wfKey k) : ∀ k ∈ (sepKeys acc s).2, wfKey k := by
  generalize hgen : s.length = n
  induction n using Nat.strong_induction_on generalizing acc s with
  | _ n ih =>
      subst hgen
      cases h1 : many1LineEnding s with
      | none =>
          rw [sepKeys_none h1]
          intro k hk
          exact hacc k (by simpa using hk)
      | some s1 =>
          cases h2 : entry_key s1 with
          | none =>
              rw [sepKeys_stop h1 h2]
              intro k hk
              exact hacc k (by simpa using hk)
          | some r =>
              rw [sepKeys_step h1 (by rw [h2])]
              have hlen : r.1.length < s.length :=
                Nat.lt_of_le_of_lt (entry_key_suffix h2).length_le (many1LineEnding_length_lt h1)
              refine ih r.1.length hlen _ _ ?_ rfl
              intro k hk
              rcases List.mem_cons.mp hk with hk1 | hk1
              · subst hk1
                exact entry_key_wf h2
              · exact hacc k hk1

theorem boot_entry_wf {s rest : List Char} {keys : List EntryKey}
    (h : boot_entry s = (rest, keys)) : ∀ k ∈ keys, wfKey k := by
  unfold boot_entry at h
  split at h
  · simp only [Prod.mk.injEq] at h
    rw [← h.2]
    intro k hk
    simp at hk
  · next s1 k hk =>
      simp only [Prod.mk.injEq] at h
      rw [← h.2]
      refine sepKeys_wf [k] s1 ?_
      intro k1 hk1
      rw [List.mem_singleton] at hk1
      subst hk1
      exact entry_key_wf hk

/-- Contexts in which an argument parse stops: end of input or a newline
(the rendering always puts a bare newline after each key). -/
def restLE (rest : List Char) : Prop :=
  rest = [] ∨ rest.head? = some '\n'

theorem tagNoCase_self : ∀ t s : List Char, tagNoCase t (t ++ s) = some s := by
  intro t
  induction t with
  | nil => intro s; rfl
  | cons c cs ih => intro s; simp [tagNoCase, ih]

theorem skipSpaces_id {l : List Char}
    (h : ∀ c, l.head? = some c → ¬(c = ' ' ∨ c = '\t')) : skipSpaces l = l := by
  cases l with
  | nil => rfl
  | cons a rest => rw [skipSpaces, if_neg (h a rfl)]

theorem spaces1_cons_space {l : List Char}
    (h : ∀ c, l.head? = some c → ¬(c = ' ' ∨ c = '\t')) :
    spaces1 (' ' :: l) = some l := by
  rw [spaces1, if_pos (Or.inl rfl), skipSpaces_id h]

theorem takeWhile_dropWhile_append {p : Char → Bool} {a rest : List Char}
    (ha : ∀ c ∈ a, p c = true) (hr : ∀ c, rest.head? = some c → p c = false) :
    (a ++ rest).takeWhile p = a ∧ (a ++ rest).dropWhile p = rest := by
  induction a with
  | nil =>
      simp only [List.nil_append]
      cases rest with
      | nil => simp
      | cons c cs =>
          have := hr c rfl
          constructor
          · rw [List.takeWhile_cons, this]; simp
          · rw [List.dropWhile_cons, this]; simp
  | cons c cs ih =>
      have hc : p c = true := ha c (by simp)
      have ihr := ih (fun x hx => ha x (by simp [hx]))
      simp only [List.cons_append, List.takeWhile_cons, List.dropWhile_cons, hc]
      simp [ihr.1, ihr.2]

theorem restLE_notLE {rest : List Char} (hr : restLE rest) :
    ∀ c, rest.head? = some c → (!isLineEndingChar c) = false := by
  intro c hc
  rcases hr with h | h
  · subst h; simp at hc
  · rw [h] at hc
    simp at hc
    subst hc
    decide

theorem restLE_ws {rest : List Char} (hr : restLE rest) :
    ∀ c, rest.head? = some c → rustIsWhitespace c = true := by
  intro c hc
  rcases hr with h | h
  · subst h; simp at hc
  · rw [h] at hc
    simp at hc
    subst hc
    decide

theorem restLE_noSpace {rest : List Char} (hr : restLE rest) :
    ∀ c, rest.head? = some c → ¬(c = ' ' ∨ c = '\t') := by
  intro c hc
  rcases hr with h | h
  · subst h; simp at hc
  · rw [h] at hc
    simp at hc
    subst hc
    decide

theorem singleStringArgument_append {a rest : List Char} (hA : argOk a) (hr : restLE rest) :
    singleStringArgument (a ++ rest) = some (rest, a) := by
  obtain ⟨hne, hle, -⟩ := hA
  have hsplit := @takeWhile_dropWhile_append (fun c => !isLineEndingChar c) a rest
    (fun c hc => by simp [hle c hc]) (restLE_notLE hr)
  unfold singleStringArgument
  rw [hsplit.1, hsplit.2]
  simp [hne]

theorem nonSpace_append {t cont : List Char}
    (ht : ∀ c ∈ t, rustIsWhitespace c = false)
    (hc : ∀ c, cont.head? = some c → rustIsWhitespace c = true) :
    nonSpace (t ++ cont) = (cont, t) := by
  have hsplit := @takeWhile_dropWhile_append (fun c => !rustIsWhitespace c) t cont
    (fun c h => by simp [ht c h]) (fun c h => by simp [hc c h])
  unfold nonSpace
  rw [hsplit.1, hsplit.2]

theorem wsFree_noSpace {c : Char} (h : rustIsWhitespace c = false) : ¬(c = ' ' ∨ c = '\t') := by
  intro hc
  rcases hc with h1 | h1 <;> subst h1 <;> simp [rustIsWhitespace] at h

theorem tokensOk_tail {t t2 : List Char} {ts : List (List Char)}
    (h : tokensOk (t :: t2 :: ts)) : tokensOk (t2 :: ts) := by
  obtain ⟨-, hws, hdl⟩ := h
  refine ⟨by simp, ?_, ?_⟩
  · intro x hx
    exact hws x (by simp [hx])
  · intro x hx
    refine hdl x ?_
    rw [show (t :: t2 :: ts).dropLast = t :: (t2 :: ts).dropLast from by simp [List.dropLast]]
    simp [hx]

theorem joinSpace_head {ts : List (List Char)} {rest : List Char}
    (hts : tokensOk ts) (hr : restLE rest) :
    ∀ c, (joinSpace ts ++ rest).head? = some c → ¬(c = ' ' ∨ c = '\t') := by
  obtain ⟨hne, hws, hdl⟩ := hts
  intro c hc
  cases ts with
  | nil => exact absurd rfl hne
  | cons t ts1 =>
      cases t with
      | nil =>
          cases ts1 with
          | nil =>
              simp only [joinSpace, List.nil_append] at hc
              exact restLE_noSpace hr c hc
          | cons t2 ts2 =>
              have : ([] : List Char) ≠ [] := by
                refine hdl [] ?_
                rw [show (([] : List Char) :: t2 :: ts2).dropLast
                    = [] :: (t2 :: ts2).dropLast from by simp [List.dropLast]]
                simp
              exact absurd rfl this
      | cons a t1 =>
          have ha : rustIsWhitespace a = false := hws (a :: t1) (by simp) a (by simp)
          have hhd : (joinSpace ((a :: t1) :: ts1) ++ rest).head? = some a := by
            cases ts1 <;> simp [joinSpace]
          rw [hhd] at hc
          simp at hc
          subst hc
          exact wsFree_noSpace ha

theorem sepList_roundtrip_gen : ∀ (ts : List (List Char)) (acc : List (List Char))
    (rest : List Char), tokensOk ts → restLE rest →
    sepListLoop ((nonSpace (joinSpace ts ++ rest)).2 :: acc)
      (nonSpace (joinSpace ts ++ rest)).1 = (rest, acc.reverse ++ ts) := by
  intro ts
  induction ts with
  | nil => intro acc rest hts _; exact absurd rfl hts.1
  | cons t ts1 ih =>
      intro acc rest hts hr
      cases ts1 with
      | nil =>
          have hns : nonSpace (joinSpace [t] ++ rest) = (rest, t) := by
            rw [show joinSpace [t] = t from rfl]
            exact nonSpace_append (hts.2.1 t (by simp)) (restLE_ws hr)
          rw [hns]
          rw [sepListLoop_none (spaces1_none_of_head (restLE_noSpace hr))]
          simp
      | cons t2 ts2 =>
          have htne : t ≠ [] := by
            refine hts.2.2 t ?_
            rw [show (t :: t2 :: ts2).dropLast = t :: (t2 :: ts2).dropLast from by
              simp [List.dropLast]]
            simp
          have hjoin : joinSpace (t :: t2 :: ts2) ++ rest
              = t ++ (' ' :: (joinSpace (t2 :: ts2) ++ rest)) := by
            rw [show joinSpace (t :: t2 :: ts2) = t ++ ' ' :: joinSpace (t2 :: ts2) from rfl]
            simp
          have hns : nonSpace (joinSpace (t :: t2 :: ts2) ++ rest)
              = (' ' :: (joinSpace (t2 :: ts2) ++ rest), t) := by
            rw [hjoin]
            exact nonSpace_append (hts.2.1 t (by simp)) (by intro c hc; simp at hc; subst hc; decide)
          rw [hns]
          rw [sepListLoop_step (spaces1_cons_space (joinSpace_head (tokensOk_tail hts) hr))]
          rw [ih (t :: acc) rest (tokensOk_tail hts) hr]
          simp

theorem spaceSeparatedList_roundtrip {ts : List (List Char)} {rest : List Char}
    (hts : tokensOk ts) (hr : restLE rest) :
    spaceSeparatedList (joinSpace ts ++ rest) = (rest, ts) := by
  unfold spaceSeparatedList
  have := sepList_roundtrip_gen ts [] rest hts hr
  simpa using this

theorem argOk_append_head {a : List Char} (rest : List Char) (hA : argOk a) :
    ∀ c, (a ++ rest).head? = some c → ¬(c = ' ' ∨ c = '\t') := by
  intro c hc
  cases a with
  | nil => exact absurd rfl hA.1
  | cons x xs =>
      simp at hc
      subst hc
      exact hA.2.2 x rfl

theorem linuxKey_rt {p rest : List Char} (hA : argOk p) (hr : restLE rest) :
    linuxKey ("linux ".data ++ (p ++ rest)) = some (rest, EntryKey.Linux p) := by
  simp [linuxKey, tagNoCase, asciiLower, spaces1, skipSpaces_id (argOk_append_head rest hA),
    singleStringArgument_append hA hr]

theorem devicetreeKey_rt {p rest : List Char} (hA : argOk p) (hr : restLE rest) :
    devicetreeKey ("devicetree ".data ++ (p ++ rest)) = some (rest, EntryKey.Devicetree p) := by
  simp [devicetreeKey, tagNoCase, asciiLower, spaces1, skipSpaces_id (argOk_append_head rest hA),
    singleStringArgument_append hA hr]

theorem titleKey_rt {t rest : List Char} (hA : argOk t) (hr : restLE rest) :
    titleKey ("title ".data ++ (t ++ rest)) = some (rest, EntryKey.Title t) := by
  simp [titleKey, tagNoCase, asciiLower, spaces1, skipSpaces_id (argOk_append_head rest hA),
    singleStringArgument_append hA hr]

theorem optionsKey_rt {ts : List (List Char)} {rest : List Char}
    (hts : tokensOk ts) (hr : restLE rest) :
    optionsKey ("options ".data ++ (joinSpace ts ++ rest)) = some (rest, EntryKey.Options ts) := by
  simp [optionsKey, tagNoCase, asciiLower, spaces1, skipSpaces_id (joinSpace_head hts hr),
    spaceSeparatedList_roundtrip hts hr]

theorem linuxKey_none_dt (x : List Char) : linuxKey ("devicetree ".data ++ x) = none := by
  simp [linuxKey, tagNoCase, asciiLower]

theorem linuxKey_none_opt (x : List Char) : linuxKey ("options ".data ++ x) = none := by
  simp [linuxKey, tagNoCase, asciiLower]

theorem linuxKey_none_title (x : List Char) : linuxKey ("title ".data ++ x) = none := by
  simp [linuxKey, tagNoCase, asciiLower]

theorem devicetreeKey_none_opt (x : List Char) : devicetreeKey ("options ".data ++ x) = none := by
  simp [devicetreeKey, tagNoCase, asciiLower]

theorem devicetreeKey_none_title (x : List Char) : devicetreeKey ("title ".data ++ x) = none := by
  simp [devicetreeKey, tagNoCase, asciiLower]

theorem optionsKey_none_title (x : List Char) : optionsKey ("title ".data ++ x) = none := by
  simp [optionsKey, tagNoCase, asciiLower]

theorem entry_key_rt {k : EntryKey} {rest : List Char} (hk : wfKey k) (hr : restLE rest) :
    entry_key (renderEntryKey k ++ rest) = some (rest, k) := by
  cases k with
  | Linux p =>
      show entry_key (("linux ".data ++ p) ++ rest) = some (rest, EntryKey.Linux p)
      rw [List.append_assoc]
      unfold entry_key
      rw [linuxKey_rt hk hr]
  | Devicetree p =>
      show entry_key (("devicetree ".data ++ p) ++ rest) = some (rest, EntryKey.Devicetree p)
      rw [List.append_assoc]
      unfold entry_key
      rw [linuxKey_none_dt, devicetreeKey_rt hk hr]
  | Options ts =>
      show entry_key (("options ".data ++ joinSpace ts) ++ rest)
          = some (rest, EntryKey.Options ts)
      rw [List.append_assoc]
      unfold entry_key
      rw [linuxKey_none_opt, devicetreeKey_none_opt, optionsKey_rt hk hr]
  | Title t =>
      show entry_key (("title ".data ++ t) ++ rest) = some (rest, EntryKey.Title t)
      rw [List.append_assoc]
      unfold entry_key
      rw [linuxKey_none_title, devicetreeKey_none_title, optionsKey_none_title,
        titleKey_rt hk hr]

theorem entry_key_nil : entry_key [] = none := by
  simp [entry_key, linuxKey, devicetreeKey, optionsKey, titleKey, tagNoCase]

theorem lineEnding_render_none (k : EntryKey) (x : List Char) :
    lineEnding (renderEntryKey k ++ x) = none := by
  cases k <;> simp [renderEntryKey, lineEnding]

theorem many1LineEnding_render {k : EntryKey} {x : List Char} :
    many1LineEnding ('\n' :: (renderEntryKey k ++ x)) = some (renderEntryKey k ++ x) := by
  simp [many1LineEnding, lineEnding, skipLineEndings_of_none (lineEnding_render_none k x)]

theorem sepKeys_rt : ∀ (ks : List EntryKey) (acc : List EntryKey),
    (∀ k ∈ ks, wfKey k) →
    sepKeys acc ('\n' :: renderKeys ks) = (['\n'], acc.reverse ++ ks) := by
  intro ks
  induction ks with
  | nil =>
      intro acc _
      have h1 : many1LineEnding ['\n'] = some [] := by
        simp [many1LineEnding, lineEnding, skipLineEndings_of_none (show lineEnding [] = none from rfl)]
      rw [show renderKeys [] = [] from rfl]
      rw [sepKeys_stop h1 entry_key_nil]
      simp
  | cons k ks1 ih =>
      intro acc hwf
      rw [show renderKeys (k :: ks1) = renderEntryKey k ++ '\n' :: renderKeys ks1 from rfl]
      rw [sepKeys_step many1LineEnding_render
        (entry_key_rt (hwf k (by simp)) (show restLE ('\n' :: renderKeys ks1) from Or.inr rfl))]
      rw [ih (k :: acc) (fun x hx => hwf x (by simp [hx]))]
      simp

theorem boot_entry_rt {keys : List EntryKey} (hwf : ∀ k ∈ keys, wfKey k) :
    boot_entry (renderKeys keys) = ([], keys) := by
  cases keys with
  | nil =>
      unfold boot_entry
      rw [show renderKeys ([] : List EntryKey) = [] from rfl, entry_key_nil]
      rfl
  | cons k ks =>
      unfold boot_entry
      rw [show renderKeys (k :: ks) = renderEntryKey k ++ '\n' :: renderKeys ks from rfl]
      rw [entry_key_rt (hwf k (by simp)) (show restLE ('\n' :: renderKeys ks) from Or.inr rfl)]
      show (optLineEnding (sepKeys [k] ('\n' :: renderKeys ks)).1,
        (sepKeys [k] ('\n' :: renderKeys ks)).2) = ([], k :: ks)
      rw [sepKeys_rt ks [k] (fun x hx => hwf x (by simp [hx]))]
      simp [optLineEnding, lineEnding]

/-- C2: for every BootEntry the parser itself can produce from some input
text (any run of `boot_entry`, whatever the remainder), rendering it with
the Display implementation and re-parsing with the caller-level FromStr
API succeeds and returns an equal BootEntry. -/
theorem C2_display_fromStr_roundtrip : ∀ (s rest : List Char) (keys : List EntryKey),
    boot_entry s = (rest, keys) →
    bootEntryFromStr (renderBootEntry ⟨keys⟩) = some ⟨keys⟩ := by
  intro s rest keys h
  have hwf := boot_entry_wf h
  have hrt : boot_entry (renderBootEntry ⟨keys⟩) = ([], keys) := boot_entry_rt hwf
  unfold bootEntryFromStr
  rw [hrt]
  simp

/-- Witness for C2: the round trip at the concrete parser output for
"linux /Image". -/
theorem C2_display_fromStr_roundtrip_witness :
    bootEntryFromStr (renderBootEntry ⟨[EntryKey.Linux "/Image".data]⟩) =
    some ⟨[EntryKey.Linux "/Image".data]⟩ := by
  refine C2_display_fromStr_roundtrip "linux /Image".data [] _ ?_
  simp [boot_entry, entry_key, linuxKey, devicetreeKey, optionsKey, titleKey, tagNoCase,
    asciiLower, spaces1, skipSpaces, singleStringArgument, nonSpace, spaceSeparatedList,
    sepListLoop_none, sepListLoop_step, sepKeys_none, sepKeys_stop, sepKeys_step,
    many1LineEnding, lineEnding, skipLineEndings_of_none, skipLineEndings_step,
    optLineEnding, isLineEndingChar, rustIsWhitespace, String.data]

theorem optLineEnding_suffix (s : List Char) : (optLineEnding s).IsSuffix s := by
  unfold optLineEnding
  cases h : lineEnding s with
  | none => simp
  | some s1 => simpa using lineEnding_suffix h

theorem sepKeys_suffix (acc : List EntryKey) (s : List Char) :
    (sepKeys acc s).1.IsSuffix s := by
  generalize hgen : s.length = n
  induction n using Nat.strong_induction_on generalizing acc s with
  | _ n ih =>
      subst hgen
      cases h1 : many1LineEnding s with
      | none => rw [sepKeys_none h1]
      | some s1 =>
          cases h2 : entry_key s1 with
          | none => rw [sepKeys_stop h1 h2]
          | some r =>
              rw [sepKeys_step h1 (by rw [h2])]
              have hlen : r.1.length < s.length :=
                Nat.lt_of_le_of_lt (entry_key_suffix h2).length_le (many1LineEnding_length_lt h1)
              exact (ih r.1.length hlen _ _ rfl).trans
                ((entry_key_suffix h2).trans (many1LineEnding_suffix h1))

theorem boot_entry_rest_suffix (s : List Char) : (boot_entry s).1.IsSuffix s := by
  unfold boot_entry
  cases h : entry_key s with
  | none => exact optLineEnding_suffix s
  | some r =>
      exact ((optLineEnding_suffix (sepKeys [r.2] r.1).1).trans
        (sepKeys_suffix [r.2] r.1)).trans (entry_key_suffix (by rw [h]))

/-- C8: the low-level entry parser never fails: on the concrete input
"linux /Image\ndevisetree /boot.dtb\n" it returns the prefix of keys before
the first unparsable line (just the Linux key) with that line and
everything after it as unconsumed remainder, and in general the remainder
it leaves is always a suffix of the input (the offending text is never
consumed). -/
theorem C8_partial_failure :
    boot_entry "linux /Image\ndevisetree /boot.dtb\n".data
      = ("devisetree /boot.dtb\n".data, [EntryKey.Linux "/Image".data]) ∧
    ∀ s : List Char, (boot_entry s).1.IsSuffix s := by
  constructor
  · simp [boot_entry, entry_key, linuxKey, devicetreeKey, optionsKey, titleKey, tagNoCase,
      asciiLower, spaces1, skipSpaces, singleStringArgument, nonSpace, spaceSeparatedList,
      sepListLoop_none, sepListLoop_step, sepKeys_none, sepKeys_stop, sepKeys_step,
      many1LineEnding, lineEnding, skipLineEndings_of_none, skipLineEndings_step,
      optLineEnding, isLineEndingChar, rustIsWhitespace, String.data]
  · exact boot_entry_rest_suffix

/-- The syslinux KERNEL-like directive (syslinux.rs `Kernel`). -/
inductive Kernel where
  | Kernel (image : List Char)
deriving DecidableEq

/-- The syslinux label directives (syslinux.rs `LabelDirective`). -/
inductive LabelDirective where
  | Initrd : List Char → LabelDirective
  | Fdt : List Char → LabelDirective
  | Append : List (List Char) → LabelDirective
deriving DecidableEq

/-- Model of `BootFile for Kernel`: the kernel always exposes its image
path (the `unwrap` in `listed_files` can never fail). -/
def Kernel.boot_file : InstantNetboot.Kernel → Option (List Char)
  | .Kernel image => some image

/-- Model of `BootFile for LabelDirective`. -/
def LabelDirective.boot_file : LabelDirective → Option (List Char)
  | .Initrd initrd => some initrd
  | .Fdt fdt => some fdt
  | .Append _ => none

/-- A syslinux label clause (syslinux.rs `Label`). -/
structure Label where
  name : List Char
  kernel : Kernel
  directives : List LabelDirective
deriving DecidableEq

/-- Model of `Display for Kernel`. -/
def renderKernel : Kernel → List Char
  | .Kernel image => "KERNEL ".data ++ image

/-- Model of `Display for LabelDirective`. -/
def renderLabelDirective : LabelDirective → List Char
  | .Initrd initrd => "INITRD ".data ++ initrd
  | .Fdt fdt => "FDT ".data ++ fdt
  | .Append options => "APPEND ".data ++ joinSpace options

/-- Rendering of the directive list, one line per directive. -/
def renderDirectives : List LabelDirective → List Char
  | [] => []
  | d :: ds => renderLabelDirective d ++ '\n' :: renderDirectives ds

/-- Model of `Display for Label`: the LABEL line, the kernel line, then
one line per directive, each terminated by a bare newline. -/
def renderLabel (l : Label) : List Char :=
  "LABEL ".data ++ l.name ++ '\n' :: (renderKernel l.kernel ++ '\n' :: renderDirectives l.directives)

/-- Model of `TryFrom<uapi::EntryKey> for LabelDirective` (`Err` is
`none`). -/
def labelDirectiveTryFrom : EntryKey → Option LabelDirective
  | .Title _ => none
  | .Linux _ => none
  | .Devicetree fdt => some (LabelDirective.Fdt fdt)
  | .Options options => some (LabelDirective.Append options)

/-- The scan loop of `TryFrom<uapi::BootEntry> for Label`: iterate the
keys in order; a Title key overwrites the captured name, a Linux key
overwrites the captured kernel path, and every other key is mapped
through `labelDirectiveTryFrom` and collected in order (unmappable keys
dropped). -/
def convLoop : List EntryKey → Option (List Char) → Option (List Char) →
    Option (List Char) × Option (List Char) × List LabelDirective
  | [], name?, kernel? => (name?, kernel?, [])
  | .Title t :: rest, _, kernel? => convLoop rest (some t) kernel?
  | .Linux p :: rest, name?, _ => convLoop rest name? (some p)
  | .Devicetree fdt :: rest, name?, kernel? =>
      ((convLoop rest name? kernel?).1, (convLoop rest name? kernel?).2.1,
        LabelDirective.Fdt fdt :: (convLoop rest name? kernel?).2.2)
  | .Options options :: rest, name?, kernel? =>
      ((convLoop rest name? kernel?).1, (convLoop rest name? kernel?).2.1,
        LabelDirective.Append options :: (convLoop rest name? kernel?).2.2)

/-- Model of `TryFrom<uapi::BootEntry> for Label`: run the scan, then fail
unless both a name and a kernel were captured. -/
def labelTryFrom (e : BootEntry) : Option Label :=
  match convLoop e.keys none none with
  | (some n, some k, dirs) => some ⟨n, Kernel.Kernel k, dirs⟩
  | _ => none

/-- The routing errors of the netboot server (instant_netboot.rs `Error`). -/
inductive Error where
  | InvalidRequestPath
  | FileNotFound
  | IoError
deriving DecidableEq

/-- The NFS version selector (instant_netboot.rs `NfsVersion`). -/
inductive NfsVersion where
  | NFSv3
  | NFSv4
deriving DecidableEq

/-- The target IP configuration (instant_netboot.rs
`TargetIpConfiguration`); the `Static` variant has no fields. -/
inductive TargetIpConfiguration where
  | Dhcp
  | Static
deriving DecidableEq

/-- The NFS configuration (instant_netboot.rs `NfsConfiguration`); the
host address is modelled by its Display rendering. -/
structure NfsConfiguration where
  host : List Char
  share : List Char
  version : NfsVersion
  target_ip : TargetIpConfiguration
  is_writable : Bool
deriving DecidableEq

/-- The netboot server state (instant_netboot.rs `NetbootServer`). -/
structure NetbootServer where
  configuration : Label
  nfs : Option NfsConfiguration
deriving DecidableEq

/-- Lowercase hexadecimal digit class `[0-9a-f]`. -/
def isLowerHex (c : Char) : Bool :=
  ('0' ≤ c && c ≤ '9') || ('a' ≤ c && c ≤ 'f')

/-- Uppercase hexadecimal digit class `[A-F0-9]`. -/
def isUpperHex (c : Char) : Bool :=
  ('0' ≤ c && c ≤ '9') || ('A' ≤ c && c ≤ 'F')

/-- Consume exactly `n` lowercase hex digits (a `[0-9a-f]\x7bn\x7d` regex
fragment). -/
def takeHexLower : Nat → List Char → Option (List Char)
  | 0, s => some s
  | n + 1, c :: cs => if isLowerHex c then takeHexLower n cs else none
  | _ + 1, [] => none

/-- Consume exactly one given literal character. -/
def takeLit (ch : Char) : List Char → Option (List Char)
  | c :: cs => if c = ch then some cs else none
  | [] => none

/-- Model of the anchored UUID regex
`[0-9a-f]\x7b8\x7d-[0-9a-f]\x7b4\x7d-[0-9a-f]\x7b4\x7d-[0-9a-f]\x7b4\x7d-[0-9a-f]\x7b12\x7d`. -/
def uuidMatch (s : List Char) : Bool :=
  match (((((((((takeHexLower 8 s).bind (takeLit '-')).bind (takeHexLower 4)).bind
      (takeLit '-')).bind (takeHexLower 4)).bind (takeLit '-')).bind (takeHexLower 4)).bind
      (takeLit '-')).bind (takeHexLower 12)) with
  | some r => r.isEmpty
  | none => false

/-- Model of the anchored MAC regex `01-([0-9a-f]\x7b2\x7d-)\x7b5\x7d[0-9a-f]\x7b2\x7d`. -/
def macMatch (s : List Char) : Bool :=
  match (((((((((((((takeLit '0' s).bind (takeLit '1')).bind (takeLit '-')).bind
      (takeHexLower 2)).bind (takeLit '-')).bind (takeHexLower 2)).bind (takeLit '-')).bind
      (takeHexLower 2)).bind (takeLit '-')).bind (takeHexLower 2)).bind (takeLit '-')).bind
      (takeHexLower 2)).bind (takeLit '-')).bind (takeHexLower 2) with
  | some r => r.isEmpty
  | none => false

/-- Model of the anchored hex-encoded IP regex `[A-F0-9]\x7b1,8\x7d`. -/
def ipMatch (s : List Char) : Bool :=
  decide (1 ≤ s.length) && decide (s.length ≤ 8) && s.all isUpperHex

/-- Model of `Path::strip_prefix(Path::new("pxelinux.cfg"))` on textual
paths in canonical form: the path is either exactly the prefix or the
prefix followed by a separator and the remainder. -/
def stripPxePrefix (path : List Char) : Option (List Char) :=
  if path = "pxelinux.cfg".data then some []
  else if "pxelinux.cfg/".data.isPrefixOf path then some (path.drop 13)
  else none

/-- Model of `is_pxe_config_path`.  Paths are modelled as valid Unicode
text, so the `to_str` failure branch (which is the only source of
`Err(InvalidRequestPath)`) is unreachable; when the prefix strips but all
three identifier patterns fail, the function returns `Ok(false)`. -/
def is_pxe_config_path (path : List Char) : Except Error Bool :=
  match stripPxePrefix path with
  | none => Except.ok false
  | some rest => Except.ok (uuidMatch rest || macMatch rest || ipMatch rest)

/-- Model of `make_nfsroot_option`:
`format!("nfsroot=\x7b\x7d:\x7b\x7d,vers=\x7b\x7d,tcp", host, share, version)`. -/
def make_nfsroot_option (nfs : NfsConfiguration) : List Char :=
  "nfsroot=".data ++ nfs.host ++ ":".data ++ nfs.share ++ ",vers=".data ++
    (match nfs.version with
      | NfsVersion.NFSv3 => "3".data
      | NfsVersion.NFSv4 => "4".data) ++ ",tcp".data

/-- Model of `make_ip_option`; the `panic!` on the unimplemented `Static`
variant is modelled as `none`. -/
def make_ip_option : TargetIpConfiguration → Option (List Char)
  | TargetIpConfiguration.Dhcp => some ("ip=".data ++ "dhcp".data)
  | TargetIpConfiguration.Static => none

/-- The in-place merge of `make_nfs_configuration`: find the first
`Append` directive and extend its token list; if none exists, push a new
`Append` directive at the end. -/
def addToFirstAppend (args : List (List Char)) : List LabelDirective → List LabelDirective
  | [] => [LabelDirective.Append args]
  | LabelDirective.Append current :: rest => LabelDirective.Append (current ++ args) :: rest
  | d :: rest => d :: addToFirstAppend args rest

/-- Model of `make_nfs_configuration`: build the NFS kernel-command-line
fragments in order and merge them into the label's Append directive
(`none` models the panic on a Static target IP). -/
def make_nfs_configuration (configuration : Label) (nfs : NfsConfiguration) : Option Label :=
  match make_ip_option nfs.target_ip with
  | none => none
  | some ipOption =>
      some { configuration with
        directives := addToFirstAppend
          ["root=/dev/nfs".data,
           if nfs.is_writable then "rw".data else "ro".data,
           make_nfsroot_option nfs,
           "rootwait".data,
           ipOption] configuration.directives }

/-- Model of `listed_files`: the boot files of the directives in order,
then the kernel's boot file (always present). -/
def listed_files (label : Label) : List (List Char) :=
  label.directives.filterMap LabelDirective.boot_file ++ label.kernel.boot_file.toList

/-- Model of `NetbootServer::tftp_get`, with the storage collaborator
modelled as an oracle `fs` from paths to optional byte streams and the
returned server state made explicit (the Rust method takes `&mut self`
but never writes).  The outer `none` models the augmentation panic. -/
def tftp_get (fs : List Char → Option (List Char)) (server : NetbootServer)
    (path : List Char) : Option (NetbootServer × Except Error (List Char)) :=
  match is_pxe_config_path path with
  | Except.error e => some (server, Except.error e)
  | Except.ok true =>
      match server.nfs with
      | some nfs =>
          match make_nfs_configuration server.configuration nfs with
          | some configuration => some (server, Except.ok (renderLabel configuration))
          | none => none
      | none => some (server, Except.ok (renderLabel server.configuration))
  | Except.ok false =>
      match (listed_files server.configuration).find? (fun file => file = path) with
      | some file =>
          match fs file with
          | some contents => some (server, Except.ok contents)
          | none => some (server, Except.error Error.IoError)
      | none => some (server, Except.error Error.FileNotFound)

/-- Specification-side reading of the converter: the argument of the last
Title key, if any (last occurrence wins). -/
def lastTitleArg : List EntryKey → Option (List Char)
  | [] => none
  | EntryKey.Title t :: rest => some ((lastTitleArg rest).getD t)
  | _ :: rest => lastTitleArg rest

/-- Specification-side reading of the converter: the path of the last
Linux key, if any (last occurrence wins). -/
def lastLinuxArg : List EntryKey → Option (List Char)
  | [] => none
  | EntryKey.Linux p :: rest => some ((lastLinuxArg rest).getD p)
  | _ :: rest => lastLinuxArg rest

/-- The path wrapped by a label's kernel. -/
def kernelPath (l : Label) : List Char :=
  match l.kernel with
  | Kernel.Kernel p => p

theorem convLoop_spec : ∀ (keys : List EntryKey) (n0 k0 : Option (List Char)),
    convLoop keys n0 k0
      = ((lastTitleArg keys).or n0, (lastLinuxArg keys).or k0,
          keys.filterMap labelDirectiveTryFrom) := by
  intro keys
  induction keys with
  | nil => intro n0 k0; simp [convLoop, lastTitleArg, lastLinuxArg]
  | cons k rest ih =>
      intro n0 k0
      cases k with
      | Title t =>
          rw [show convLoop (EntryKey.Title t :: rest) n0 k0
              = convLoop rest (some t) k0 from rfl, ih]
          rw [show lastTitleArg (EntryKey.Title t :: rest)
              = some ((lastTitleArg rest).getD t) from rfl]
          rw [show lastLinuxArg (EntryKey.Title t :: rest) = lastLinuxArg rest from rfl]
          rw [show (EntryKey.Title t :: rest).filterMap labelDirectiveTryFrom
              = rest.filterMap labelDirectiveTryFrom from by
            simp [List.filterMap_cons, labelDirectiveTryFrom]]
          cases h : lastTitleArg rest <;> simp [h]
      | Linux p =>
          rw [show convLoop (EntryKey.Linux p :: rest) n0 k0
              = convLoop rest n0 (some p) from rfl, ih]
          rw [show lastTitleArg (EntryKey.Linux p :: rest) = lastTitleArg rest from rfl]
          rw [show lastLinuxArg (EntryKey.Linux p :: rest)
              = some ((lastLinuxArg rest).getD p) from rfl]
          rw [show (EntryKey.Linux p :: rest).filterMap labelDirectiveTryFrom
              = rest.filterMap labelDirectiveTryFrom from by
            simp [List.filterMap_cons, labelDirectiveTryFrom]]
          cases h : lastLinuxArg rest <;> simp [h]
      | Devicetree fdt =>
          rw [show convLoop (EntryKey.Devicetree fdt :: rest) n0 k0
              = ((convLoop rest n0 k0).1, (convLoop rest n0 k0).2.1,
                  LabelDirective.Fdt fdt :: (convLoop rest n0 k0).2.2) from rfl, ih]
          rw [show lastTitleArg (EntryKey.Devicetree fdt :: rest) = lastTitleArg rest from rfl]
          rw [show lastLinuxArg (EntryKey.Devicetree fdt :: rest) = lastLinuxArg rest from rfl]
          simp [List.filterMap_cons, labelDirectiveTryFrom]
      | Options options =>
          rw [show convLoop (EntryKey.Options options :: rest) n0 k0
              = ((convLoop rest n0 k0).1, (convLoop rest n0 k0).2.1,
                  LabelDirective.Append options :: (convLoop rest n0 k0).2.2) from rfl, ih]
          rw [show lastTitleArg (EntryKey.Options options :: rest) = lastTitleArg rest from rfl]
          rw [show lastLinuxArg (EntryKey.Options options :: rest) = lastLinuxArg rest from rfl]
          simp [List.filterMap_cons, labelDirectiveTryFrom]

/-- C3: converting a BootEntry scans the keys in order; the name is the
argument of the last Title key and the kernel the path of the last Linux
key (last occurrence wins), every Devicetree key becomes an Fdt directive
and every Options key an Append directive in their original relative
order, Title and Linux keys never become directives, and conversion fails
exactly when no Title key or no Linux key is present. -/
theorem C3_entry_to_label_conversion (keys : List EntryKey) :
    (labelTryFrom ⟨keys⟩ = none ↔ (lastTitleArg keys = none ∨ lastLinuxArg keys = none)) ∧
    (∀ l, labelTryFrom ⟨keys⟩ = some l →
      lastTitleArg keys = some l.name ∧
      (∃ p, lastLinuxArg keys = some p ∧ l.kernel = Kernel.Kernel p) ∧
      l.directives = keys.filterMap labelDirectiveTryFrom) ∧
    (∀ t, labelDirectiveTryFrom (EntryKey.Title t) = none) ∧
    (∀ p, labelDirectiveTryFrom (EntryKey.Linux p) = none) ∧
    (∀ p, labelDirectiveTryFrom (EntryKey.Devicetree p) = some (LabelDirective.Fdt p)) ∧
    (∀ ts, labelDirectiveTryFrom (EntryKey.Options ts) = some (LabelDirective.Append ts)) := by
  have hconv : labelTryFrom ⟨keys⟩
      = match lastTitleArg keys, lastLinuxArg keys with
        | some n, some k => some ⟨n, Kernel.Kernel k, keys.filterMap labelDirectiveTryFrom⟩
        | _, _ => none := by
    unfold labelTryFrom
    rw [show (⟨keys⟩ : BootEntry).keys = keys from rfl, convLoop_spec keys none none]
    cases hT : lastTitleArg keys <;> cases hL : lastLinuxArg keys <;> simp
  refine ⟨?_, ?_, fun t => rfl, fun p => rfl, fun p => rfl, fun ts => rfl⟩
  · rw [hconv]
    cases hT : lastTitleArg keys <;> cases hL : lastLinuxArg keys <;> simp
  · intro l hl
    rw [hconv] at hl
    cases hT : lastTitleArg keys <;> cases hL : lastLinuxArg keys <;> rw [hT, hL] at hl
    · exact absurd hl (by simp)
    · exact absurd hl (by simp)
    · exact absurd hl (by simp)
    · next n k =>
        simp only [Option.some.injEq] at hl
        rw [← hl]
        exact ⟨rfl, ⟨k, rfl, rfl⟩, rfl⟩

/-- Witness for C3: the conversion facts at the concrete entry
[Title "F", Linux "/Image", Devicetree "/boot.dtb", Options ["quiet"]]. -/
theorem C3_entry_to_label_conversion_witness :
    lastTitleArg [EntryKey.Title "F".data, EntryKey.Linux "/Image".data,
        EntryKey.Devicetree "/boot.dtb".data, EntryKey.Options ["quiet".data]]
      = some ("F".data) ∧
    (∃ p, lastLinuxArg [EntryKey.Title "F".data, EntryKey.Linux "/Image".data,
        EntryKey.Devicetree "/boot.dtb".data, EntryKey.Options ["quiet".data]] = some p ∧
      Kernel.Kernel "/Image".data = Kernel.Kernel p) ∧
    [LabelDirective.Fdt "/boot.dtb".data, LabelDirective.Append ["quiet".data]]
      = [EntryKey.Title "F".data, EntryKey.Linux "/Image".data,
          EntryKey.Devicetree "/boot.dtb".data,
          EntryKey.Options ["quiet".data]].filterMap labelDirectiveTryFrom := by
  have h := (C3_entry_to_label_conversion
    [EntryKey.Title "F".data, EntryKey.Linux "/Image".data,
      EntryKey.Devicetree "/boot.dtb".data, EntryKey.Options ["quiet".data]]).2.1
    ⟨"F".data, Kernel.Kernel "/Image".data,
      [LabelDirective.Fdt "/boot.dtb".data, LabelDirective.Append ["quiet".data]]⟩
    (by decide)
  exact h

/-- C9: augmenting with a Static target IP hits the unimplemented branch
(modelled as none, the panic), and with Dhcp the panic branch is
unreachable and augmentation always produces a label. -/
theorem C9_static_ip_fatal :
    (∀ (label : Label) (nfs : NfsConfiguration),
      nfs.target_ip = TargetIpConfiguration.Static →
      make_nfs_configuration label nfs = none) ∧
    (∀ (label : Label) (nfs : NfsConfiguration),
      nfs.target_ip = TargetIpConfiguration.Dhcp →
      ∃ l2, make_nfs_configuration label nfs = some l2) ∧
    make_ip_option TargetIpConfiguration.Static = none ∧
    make_ip_option TargetIpConfiguration.Dhcp = some "ip=dhcp".data := by
  refine ⟨?_, ?_, rfl, by decide⟩
  · intro label nfs h
    simp [make_nfs_configuration, h, make_ip_option]
  · intro label nfs h
    unfold make_nfs_configuration
    rw [h]
    exact ⟨_, rfl⟩

/-- Example label used in concrete witnesses. -/
def lbl0 : Label :=
  ⟨"F".data, Kernel.Kernel "/Image".data, []⟩

/-- Example NFS configuration with a Static target IP. -/
def nfsStatic0 : NfsConfiguration :=
  ⟨"10.0.0.1".data, "/export".data, NfsVersion.NFSv3, TargetIpConfiguration.Static, false⟩

/-- Example NFS configuration with a Dhcp target IP. -/
def nfsDhcp0 : NfsConfiguration :=
  ⟨"10.0.0.1".data, "/export".data, NfsVersion.NFSv3, TargetIpConfiguration.Dhcp, false⟩

/-- Example storage oracle that has no files. -/
def fs0 : List Char → Option (List Char) :=
  fun _ => none

/-- Example server without NFS configured. -/
def srv0 : NetbootServer :=
  ⟨lbl0, none⟩

/-- Witness for C9: the Static panic and the Dhcp success at concrete
inputs. -/
theorem C9_static_ip_fatal_witness :
    make_nfs_configuration lbl0 nfsStatic0 = none ∧
    ∃ l2, make_nfs_configuration lbl0 nfsDhcp0 = some l2 :=
  ⟨C9_static_ip_fatal.1 lbl0 nfsStatic0 rfl, C9_static_ip_fatal.2.1 lbl0 nfsDhcp0 rfl⟩

/-- C7: tftp_get never mutates the server state: whenever it returns, the
returned state equals the input state, so the base Label and the NFS
configuration are unchanged by any request. -/
theorem C7_no_mutation : ∀ (fs : List Char → Option (List Char)) (srv : NetbootServer)
    (path : List Char) (r : NetbootServer × Except Error (List Char)),
    tftp_get fs srv path = some r →
    r.1.configuration = srv.configuration ∧ r.1.nfs = srv.nfs := by
  intro fs srv path r h
  unfold tftp_get at h
  split at h <;> (try split at h) <;> (try split at h) <;>
    first
      | (simp only [Option.some.injEq] at h; rw [← h]; exact ⟨rfl, rfl⟩)
      | exact absurd h (by simp)

/-- Witness for C7: a concrete request leaves the concrete server's
fields unchanged. -/
theorem C7_no_mutation_witness :
    (srv0, (Except.error Error.FileNotFound : Except Error (List Char))).1.configuration
        = srv0.configuration ∧
    (srv0, (Except.error Error.FileNotFound : Except Error (List Char))).1.nfs = srv0.nfs :=
  C7_no_mutation fs0 srv0 "vmlinuz".data
    (srv0, (Except.error Error.FileNotFound : Except Error (List Char))) (by rfl)

/-- A directive is an Append directive. -/
def isAppendDirective (d : LabelDirective) : Prop :=
  ∃ args, d = LabelDirective.Append args

/-- Specification-side NFS command-line fragments, in the fixed order the
spec states: root=/dev/nfs, rw or ro, nfsroot=(host):(share),vers=(3|4),tcp,
rootwait, ip=dhcp. -/
def specNfsFragments (nfs : NfsConfiguration) : List (List Char) :=
  ["root=/dev/nfs".data,
   if nfs.is_writable then "rw".data else "ro".data,
   "nfsroot=".data ++ nfs.host ++ ":".data ++ nfs.share ++ ",vers=".data ++
     (match nfs.version with
       | NfsVersion.NFSv3 => "3".data
       | NfsVersion.NFSv4 => "4".data) ++ ",tcp".data,
   "rootwait".data,
   "ip=dhcp".data]

theorem addToFirstAppend_spec (args : List (List Char)) : ∀ dirs : List LabelDirective,
    ((∀ d ∈ dirs, ¬ isAppendDirective d) ∧
      addToFirstAppend args dirs = dirs ++ [LabelDirective.Append args]) ∨
    (∃ pre cur post, dirs = pre ++ LabelDirective.Append cur :: post ∧
      (∀ d ∈ pre, ¬ isAppendDirective d) ∧
      addToFirstAppend args dirs = pre ++ LabelDirective.Append (cur ++ args) :: post) := by
  intro dirs
  induction dirs with
  | nil => exact Or.inl ⟨by simp, rfl⟩
  | cons d rest ih =>
      cases d with
      | Append cur => exact Or.inr ⟨[], cur, rest, rfl, by simp, rfl⟩
      | Initrd p =>
          have hnotapp : ¬ isAppendDirective (LabelDirective.Initrd p) := by
            rintro ⟨a, ha⟩
            exact absurd ha (by simp)
          rcases ih with ⟨hno, heq⟩ | ⟨pre, cur, post, hdirs, hpre, heq⟩
          · refine Or.inl ⟨?_, ?_⟩
            · intro x hx
              rcases List.mem_cons.mp hx with h1 | h1
              · subst h1; exact hnotapp
              · exact hno x h1
            · rw [show addToFirstAppend args (LabelDirective.Initrd p :: rest)
                  = LabelDirective.Initrd p :: addToFirstAppend args rest from rfl, heq]
              simp
          · refine Or.inr ⟨LabelDirective.Initrd p :: pre, cur, post, by rw [hdirs]; rfl, ?_, ?_⟩
            · intro x hx
              rcases List.mem_cons.mp hx with h1 | h1
              · subst h1; exact hnotapp
              · exact hpre x h1
            · rw [show addToFirstAppend args (LabelDirective.Initrd p :: rest)
                  = LabelDirective.Initrd p :: addToFirstAppend args rest from rfl, heq]
              simp
      | Fdt p =>
          have hnotapp : ¬ isAppendDirective (LabelDirective.Fdt p) := by
            rintro ⟨a, ha⟩
            exact absurd ha (by simp)
          rcases ih with ⟨hno, heq⟩ | ⟨pre, cur, post, hdirs, hpre, heq⟩
          · refine Or.inl ⟨?_, ?_⟩
            · intro x hx
              rcases List.mem_cons.mp hx with h1 | h1
              · subst h1; exact hnotapp
              · exact hno x h1
            · rw [show addToFirstAppend args (LabelDirective.Fdt p :: rest)
                  = LabelDirective.Fdt p :: addToFirstAppend args rest from rfl, heq]
              simp
          · refine Or.inr ⟨LabelDirective.Fdt p :: pre, cur, post, by rw [hdirs]; rfl, ?_, ?_⟩
            · intro x hx
              rcases List.mem_cons.mp hx with h1 | h1
              · subst h1; exact hnotapp
              · exact hpre x h1
            · rw [show addToFirstAppend args (LabelDirective.Fdt p :: rest)
                  = LabelDirective.Fdt p :: addToFirstAppend args rest from rfl, heq]
              simp

/-- Example label that already carries an Append(["quiet"]) directive. -/
def lblQuiet : Label :=
  ⟨"F".data, Kernel.Kernel "/Image".data, [LabelDirective.Append ["quiet".data]]⟩

/-- C4: for a Dhcp target IP, NFS augmentation returns a label identical
to the input except that the five fragments, in the fixed order, are
appended after the existing tokens of the first Append directive if one
exists, and otherwise a new Append directive with exactly those fragments
is added as the last directive; in particular augmenting
Append(["quiet"]) with host 10.0.0.1, share /export, NFSv3, Dhcp,
read-only yields the appended token list of the claim. -/
theorem C4_nfs_merge :
    (∀ (label : Label) (nfs : NfsConfiguration),
      nfs.target_ip = TargetIpConfiguration.Dhcp →
      ∃ l2, make_nfs_configuration label nfs = some l2 ∧
        l2.name = label.name ∧ l2.kernel = label.kernel ∧
        (((∀ d ∈ label.directives, ¬ isAppendDirective d) ∧
            l2.directives = label.directives
              ++ [LabelDirective.Append (specNfsFragments nfs)]) ∨
          (∃ pre cur post, label.directives = pre ++ LabelDirective.Append cur :: post ∧
            (∀ d ∈ pre, ¬ isAppendDirective d) ∧
            l2.directives = pre
              ++ LabelDirective.Append (cur ++ specNfsFragments nfs) :: post))) ∧
    make_nfs_configuration lblQuiet nfsDhcp0
      = some ⟨"F".data, Kernel.Kernel "/Image".data,
          [LabelDirective.Append ["quiet".data, "root=/dev/nfs".data, "ro".data,
            "nfsroot=10.0.0.1:/export,vers=3,tcp".data, "rootwait".data, "ip=dhcp".data]]⟩ := by
  constructor
  · intro label nfs h
    have hargs : ["root=/dev/nfs".data,
        (if nfs.is_writable then "rw".data else "ro".data : List Char),
        make_nfsroot_option nfs, "rootwait".data, "ip=".data ++ "dhcp".data]
        = specNfsFragments nfs := by
      unfold specNfsFragments make_nfsroot_option
      rw [show "ip=".data ++ "dhcp".data = "ip=dhcp".data from by decide]
    refine ⟨{ label with
        directives := addToFirstAppend (specNfsFragments nfs) label.directives }, ?_, rfl, rfl, ?_⟩
    · unfold make_nfs_configuration
      rw [h, ← hargs]
      rfl
    · exact addToFirstAppend_spec (specNfsFragments nfs) label.directives
  · rfl

/-- Witness for C4: the merge facts at the concrete label with an
existing Append(["quiet"]) directive and the concrete Dhcp NFS
configuration. -/
theorem C4_nfs_merge_witness :
    ∃ l2, make_nfs_configuration lblQuiet nfsDhcp0 = some l2 ∧
      l2.name = lblQuiet.name ∧ l2.kernel = lblQuiet.kernel ∧
      (((∀ d ∈ lblQuiet.directives, ¬ isAppendDirective d) ∧
          l2.directives = lblQuiet.directives
            ++ [LabelDirective.Append (specNfsFragments nfsDhcp0)]) ∨
        (∃ pre cur post, lblQuiet.directives = pre ++ LabelDirective.Append cur :: post ∧
          (∀ d ∈ pre, ¬ isAppendDirective d) ∧
          l2.directives = pre
            ++ LabelDirective.Append (cur ++ specNfsFragments nfsDhcp0) :: post)) :=
  C4_nfs_merge.1 lblQuiet nfsDhcp0 rfl

theorem find?_eq_of_mem {path : List Char} : ∀ l : List (List Char), path ∈ l →
    l.find? (fun file => file = path) = some path := by
  intro l h
  induction l with
  | nil => simp at h
  | cons a rest ih =>
      rw [List.find?_cons]
      by_cases ha : a = path
      · subst ha
        simp
      · rw [show decide (a = path) = false from by simp [ha]]
        show List.find? (fun file => decide (file = path)) rest = some path
        rcases List.mem_cons.mp h with h1 | h1
        · exact absurd h1.symm ha
        · exact ih h1

theorem mem_listed_files {path : List Char} {l : Label} :
    path ∈ listed_files l ↔
      (path = kernelPath l ∨ ∃ d ∈ l.directives, d.boot_file = some path) := by
  unfold listed_files
  rw [List.mem_append, List.mem_filterMap]
  cases hk : l.kernel with
  | Kernel p =>
      constructor
      · rintro (⟨d, hd, hb⟩ | hkmem)
        · exact Or.inr ⟨d, hd, hb⟩
        · left
          simp only [Kernel.boot_file, hk] at hkmem
          simp at hkmem
          simp [kernelPath, hk, hkmem]
      · rintro (hkp | ⟨d, hd, hb⟩)
        · right
          simp only [Kernel.boot_file, hk]
          simp [kernelPath, hk] at hkp
          simp [hkp]
        · exact Or.inl ⟨d, hd, hb⟩

/-- C5: for every request path not classified as a PXE configuration
path, tftp_get serves a byte stream exactly when the path equals the
label's kernel path or the path of a file-bearing directive (IoError when
the storage open fails), returns FileNotFound exactly when it equals none
of them, and Append directives expose no file. -/
theorem C5_file_request_routing :
    ∀ (fs : List Char → Option (List Char)) (srv : NetbootServer) (path : List Char),
    is_pxe_config_path path = Except.ok false →
    ((path = kernelPath srv.configuration ∨
        ∃ d ∈ srv.configuration.directives, d.boot_file = some path) →
      tftp_get fs srv path = some (srv, match fs path with
        | some contents => Except.ok contents
        | none => Except.error Error.IoError)) ∧
    (¬ (path = kernelPath srv.configuration ∨
        ∃ d ∈ srv.configuration.directives, d.boot_file = some path) →
      tftp_get fs srv path = some (srv, Except.error Error.FileNotFound)) ∧
    (∀ args, LabelDirective.boot_file (LabelDirective.Append args) = none) := by
  intro fs srv path hp
  refine ⟨?_, ?_, fun args => rfl⟩
  · intro hmem
    have hmem2 : path ∈ listed_files srv.configuration := mem_listed_files.mpr hmem
    unfold tftp_get
    rw [hp]
    show (match (listed_files srv.configuration).find? (fun file => file = path) with
      | some file =>
          match fs file with
          | some contents => some (srv, Except.ok contents)
          | none => some (srv, Except.error Error.IoError)
      | none => some (srv, Except.error Error.FileNotFound))
      = some (srv, match fs path with
        | some contents => Except.ok contents
        | none => Except.error Error.IoError)
    rw [find?_eq_of_mem _ hmem2]
    show (match fs path with
        | some contents => some (srv, Except.ok contents)
        | none => some (srv, Except.error Error.IoError))
      = some (srv, match fs path with
        | some contents => Except.ok contents
        | none => Except.error Error.IoError)
    cases fs path <;> rfl
  · intro hnot
    have hmem2 : path ∉ listed_files srv.configuration := fun hmem =>
      hnot (mem_listed_files.mp hmem)
    unfold tftp_get
    rw [hp]
    show (match (listed_files srv.configuration).find? (fun file => file = path) with
      | some file =>
          match fs file with
          | some contents => some (srv, Except.ok contents)
          | none => some (srv, Except.error Error.IoError)
      | none => some (srv, Except.error Error.FileNotFound))
      = some (srv, Except.error Error.FileNotFound)
    rw [List.find?_eq_none.mpr (fun x hx => by
      simp only [decide_eq_true_eq]
      intro hxp
      exact hmem2 (hxp ▸ hx))]

/-- Example storage oracle that carries the kernel image. -/
def fsImage : List Char → Option (List Char) :=
  fun p => if p = "/Image".data then some "KERNELBYTES".data else none

/-- Witness for C5: the kernel path is served through the storage oracle
and an unlisted path yields FileNotFound, at concrete inputs. -/
theorem C5_file_request_routing_witness :
    tftp_get fsImage srv0 "/Image".data
        = some (srv0, Except.ok "KERNELBYTES".data) ∧
    tftp_get fsImage srv0 "vmlinuz".data
        = some (srv0, Except.error Error.FileNotFound) := by
  constructor
  · exact ((C5_file_request_routing fsImage srv0 "/Image".data rfl).1 (Or.inl (by decide)))
  · refine ((C5_file_request_routing fsImage srv0 "vmlinuz".data rfl).2.1 ?_)
    rintro (h | ⟨d, hd, -⟩)
    · exact absurd h (by decide)
    · simp [srv0, lbl0] at hd

/-- The configuration the server would serialize for a configuration
request: the NFS-augmented clone when NFS is configured, the base label
otherwise. -/
def cfgOf (srv : NetbootServer) : Option Label :=
  match srv.nfs with
  | some nfs => make_nfs_configuration srv.configuration nfs
  | none => some srv.configuration

theorem tftp_get_config_eq (fs : List Char → Option (List Char)) (srv : NetbootServer)
    (path : List Char) (hp : is_pxe_config_path path = Except.ok true) :
    tftp_get fs srv path
      = (cfgOf srv).map (fun c => (srv, Except.ok (renderLabel c))) := by
  unfold tftp_get cfgOf
  rw [hp]
  cases hn : srv.nfs with
  | none => rfl
  | some nfs =>
      show (match make_nfs_configuration srv.configuration nfs with
          | some configuration => some (srv, Except.ok (renderLabel configuration))
          | none => none)
        = Option.map (fun c => (srv, Except.ok (renderLabel c)))
            (make_nfs_configuration srv.configuration nfs)
      cases make_nfs_configuration srv.configuration nfs <;> rfl

/-- C10: configuration requests take precedence over file serving: for
every path matching the PXE convention, tftp_get returns the synthesized
configuration (independently of the storage oracle and of the file list),
even if the path also appears among the label's files. -/
theorem C10_config_precedence :
    ∀ (fs : List Char → Option (List Char)) (srv : NetbootServer) (path : List Char),
    is_pxe_config_path path = Except.ok true →
    tftp_get fs srv path
      = (cfgOf srv).map (fun c => (srv, Except.ok (renderLabel c))) :=
  fun fs srv path hp => tftp_get_config_eq fs srv path hp

/-- Example server whose kernel path collides with a PXE configuration
path. -/
def srvOverlap : NetbootServer :=
  ⟨⟨"F".data, Kernel.Kernel "pxelinux.cfg/C0A802BA".data, []⟩, none⟩

/-- Witness for C10: even though the requested path is the label's kernel
path, the synthesized configuration is returned, for any oracle (here the
empty one, which could never serve the file). -/
theorem C10_config_precedence_witness :
    tftp_get fs0 srvOverlap "pxelinux.cfg/C0A802BA".data
      = some (srvOverlap, Except.ok (renderLabel srvOverlap.configuration)) := by
  have h := C10_config_precedence fs0 srvOverlap "pxelinux.cfg/C0A802BA".data (by rfl)
  exact h

/-- Specification-side uppercase keyword of a directive line. -/
def dialectKeyword : LabelDirective → List Char
  | LabelDirective.Initrd _ => "INITRD".data
  | LabelDirective.Fdt _ => "FDT".data
  | LabelDirective.Append _ => "APPEND".data

/-- Specification-side literal argument of a directive line: the path
text for paths, the space-joined tokens for token lists. -/
def dialectArgument : LabelDirective → List Char
  | LabelDirective.Initrd p => p
  | LabelDirective.Fdt p => p
  | LabelDirective.Append ts => joinSpace ts

/-- Specification-side line: the keyword, a single space, the argument. -/
def specLine (keyword argument : List Char) : List Char :=
  keyword ++ ' ' :: argument

/-- Specification-side lines of a label: the LABEL line, the KERNEL line,
then one line per directive in stored order. -/
def specLabelLines (l : Label) : List (List Char) :=
  specLine "LABEL".data l.name :: specLine "KERNEL".data (kernelPath l) ::
    l.directives.map (fun d => specLine (dialectKeyword d) (dialectArgument d))

/-- Lines joined with a bare newline terminating each line. -/
def joinLines (lines : List (List Char)) : List Char :=
  lines.foldr (fun line acc => line ++ '\n' :: acc) []

theorem renderLabelDirective_line (d : LabelDirective) :
    renderLabelDirective d = specLine (dialectKeyword d) (dialectArgument d) := by
  cases d with
  | Initrd p =>
      show "INITRD ".data ++ p = "INITRD".data ++ ' ' :: p
      rw [show "INITRD ".data = "INITRD".data ++ [' '] from by decide]
      simp
  | Fdt p =>
      show "FDT ".data ++ p = "FDT".data ++ ' ' :: p
      rw [show "FDT ".data = "FDT".data ++ [' '] from by decide]
      simp
  | Append ts =>
      show "APPEND ".data ++ joinSpace ts = "APPEND".data ++ ' ' :: joinSpace ts
      rw [show "APPEND ".data = "APPEND".data ++ [' '] from by decide]
      simp

theorem renderDirectives_lines : ∀ ds : List LabelDirective,
    renderDirectives ds
      = joinLines (ds.map (fun d => specLine (dialectKeyword d) (dialectArgument d))) := by
  intro ds
  induction ds with
  | nil => rfl
  | cons d rest ih =>
      show renderLabelDirective d ++ '\n' :: renderDirectives rest = _
      rw [ih, renderLabelDirective_line]
      rfl

theorem renderLabel_lines (l : Label) : renderLabel l = joinLines (specLabelLines l) := by
  obtain ⟨name, ⟨p⟩, dirs⟩ := l
  show "LABEL ".data ++ name
      ++ '\n' :: (renderKernel (Kernel.Kernel p) ++ '\n' :: renderDirectives dirs) = _
  rw [renderDirectives_lines]
  show "LABEL ".data ++ name ++ '\n' :: ("KERNEL ".data ++ p ++ '\n' ::
      joinLines (dirs.map (fun d => specLine (dialectKeyword d) (dialectArgument d))))
    = joinLines (specLabelLines ⟨name, Kernel.Kernel p, dirs⟩)
  rw [show joinLines (specLabelLines ⟨name, Kernel.Kernel p, dirs⟩)
      = ("LABEL".data ++ ' ' :: name) ++ '\n' :: (("KERNEL".data ++ ' ' :: p) ++ '\n' ::
          joinLines (dirs.map (fun d => specLine (dialectKeyword d) (dialectArgument d))))
    from rfl]
  rw [show "LABEL ".data = "LABEL".data ++ [' '] from by decide,
    show ("KERNEL ".data : List Char) = "KERNEL".data ++ [' '] from by decide]
  simp

/-- C6: the serialization of a Label is the canonical rendering: one line
per directive in stored order, uppercase keyword, single space, literal
argument, each line terminated by a bare newline; the byte stream of a
synthesized configuration response is exactly this rendering; and CRLF
and LF inputs parse to the same entry. -/
theorem C6_canonical_rendering :
    (∀ l : Label, renderLabel l = joinLines (specLabelLines l)) ∧
    (∀ (fs : List Char → Option (List Char)) (srv : NetbootServer) (path : List Char)
      (c : Label), is_pxe_config_path path = Except.ok true → cfgOf srv = some c →
      tftp_get fs srv path = some (srv, Except.ok (joinLines (specLabelLines c)))) ∧
    bootEntryFromStr "linux /Image\r\n".data = bootEntryFromStr "linux /Image\n".data := by
  refine ⟨renderLabel_lines, ?_, ?_⟩
  · intro fs srv path c hp hc
    rw [tftp_get_config_eq fs srv path hp, hc]
    show some (srv, Except.ok (renderLabel c))
      = some (srv, Except.ok (joinLines (specLabelLines c)))
    rw [renderLabel_lines]
  · simp [bootEntryFromStr, boot_entry, entry_key, linuxKey, devicetreeKey, optionsKey,
      titleKey, tagNoCase, asciiLower, spaces1, skipSpaces, singleStringArgument, nonSpace,
      spaceSeparatedList, sepListLoop_none, sepListLoop_step, sepKeys_none, sepKeys_stop,
      sepKeys_step, many1LineEnding, lineEnding, skipLineEndings_of_none, skipLineEndings_step,
      optLineEnding, isLineEndingChar, rustIsWhitespace, String.data]

/-- Witness for C6: the synthesized response for a concrete configuration
request is exactly the canonical rendering of the base label. -/
theorem C6_canonical_rendering_witness :
    tftp_get fs0 srv0 "pxelinux.cfg/C0A802BA".data
      = some (srv0, Except.ok (joinLines (specLabelLines lbl0))) :=
  C6_canonical_rendering.2.1 fs0 srv0 "pxelinux.cfg/C0A802BA".data lbl0 rfl rfl

theorem takeLit_eq_some {ch : Char} {s r : List Char} :
    takeLit ch s = some r ↔ s = ch :: r := by
  cases s with
  | nil => simp [takeLit]
  | cons c cs =>
      by_cases hc : c = ch
      · subst hc
        simp [takeLit]
      · simp [takeLit, hc]

theorem takeLit_cons (ch : Char) (r : List Char) : takeLit ch (ch :: r) = some r := by
  simp [takeLit]

theorem takeHexLower_eq_some : ∀ (n : Nat) (s r : List Char),
    takeHexLower n s = some r ↔
      ∃ g, s = g ++ r ∧ g.length = n ∧ ∀ c ∈ g, isLowerHex c = true := by
  intro n
  induction n with
  | zero =>
      intro s r
      constructor
      · intro h
        simp only [takeHexLower, Option.some.injEq] at h
        exact ⟨[], by simp [h], rfl, by simp⟩
      · rintro ⟨g, hg, hlen, -⟩
        have hnil : g = [] := List.length_eq_zero.mp hlen
        subst hnil
        simp only [List.nil_append] at hg
        simp [takeHexLower, hg]
  | succ n ih =>
      intro s r
      cases s with
      | nil =>
          constructor
          · intro h
            exact absurd h (by simp [takeHexLower])
          · rintro ⟨g, hg, hlen, -⟩
            have := congrArg List.length hg
            simp at this
            omega
      | cons c cs =>
          by_cases hc : isLowerHex c
          · rw [show takeHexLower (n + 1) (c :: cs) = takeHexLower n cs from by
              simp [takeHexLower, hc]]
            rw [ih cs r]
            constructor
            · rintro ⟨g, hg, hlen, hhex⟩
              refine ⟨c :: g, by simp [hg], by simp [hlen], ?_⟩
              intro x hx
              rcases List.mem_cons.mp hx with h1 | h1
              · subst h1; exact hc
              · exact hhex x h1
            · rintro ⟨g, hg, hlen, hhex⟩
              cases g with
              | nil => simp at hlen
              | cons gc gcs =>
                  simp only [List.cons_append, List.cons.injEq] at hg
                  exact ⟨gcs, hg.2, by simpa using hlen, fun x hx => hhex x (by simp [hx])⟩
          · rw [show takeHexLower (n + 1) (c :: cs) = none from by simp [takeHexLower, hc]]
            constructor
            · intro h
              exact absurd h (by simp)
            · rintro ⟨g, hg, hlen, hhex⟩
              cases g with
              | nil => simp at hlen
              | cons gc gcs =>
                  simp only [List.cons_append, List.cons.injEq] at hg
                  refine absurd ?_ hc
                  rw [hg.1]
                  exact hhex gc (by simp)

/-- Specification-side UUID pattern: a canonical lowercase UUID, five
hyphen-separated hex groups of lengths 8-4-4-4-12. -/
def specUuid (s : List Char) : Prop :=
  ∃ g1 g2 g3 g4 g5 : List Char,
    s = g1 ++ '-' :: (g2 ++ '-' :: (g3 ++ '-' :: (g4 ++ '-' :: g5))) ∧
    g1.length = 8 ∧ g2.length = 4 ∧ g3.length = 4 ∧ g4.length = 4 ∧ g5.length = 12 ∧
    (∀ c ∈ g1, isLowerHex c = true) ∧ (∀ c ∈ g2, isLowerHex c = true) ∧
    (∀ c ∈ g3, isLowerHex c = true) ∧ (∀ c ∈ g4, isLowerHex c = true) ∧
    (∀ c ∈ g5, isLowerHex c = true)

/-- Specification-side MAC pattern: `01` (the Ethernet hardware type)
followed by six hyphen-separated two-hex-digit lowercase octets. -/
def specMac (s : List Char) : Prop :=
  ∃ o1 o2 o3 o4 o5 o6 : List Char,
    s = '0' :: '1' :: '-'
      :: (o1 ++ '-' :: (o2 ++ '-' :: (o3 ++ '-' :: (o4 ++ '-' :: (o5 ++ '-' :: o6))))) ∧
    o1.length = 2 ∧ o2.length = 2 ∧ o3.length = 2 ∧ o4.length = 2 ∧ o5.length = 2 ∧
    o6.length = 2 ∧
    (∀ c ∈ o1, isLowerHex c = true) ∧ (∀ c ∈ o2, isLowerHex c = true) ∧
    (∀ c ∈ o3, isLowerHex c = true) ∧ (∀ c ∈ o4, isLowerHex c = true) ∧
    (∀ c ∈ o5, isLowerHex c = true) ∧ (∀ c ∈ o6, isLowerHex c = true)

/-- Specification-side IP pattern: 1 to 8 uppercase hexadecimal digits. -/
def specIp (s : List Char) : Prop :=
  1 ≤ s.length ∧ s.length ≤ 8 ∧ ∀ c ∈ s, isUpperHex c = true

theorem ipMatch_iff (s : List Char) : ipMatch s = true ↔ specIp s := by
  unfold ipMatch specIp
  simp [List.all_eq_true, and_assoc]

theorem uuidMatch_iff (s : List Char) : uuidMatch s = true ↔ specUuid s := by
  constructor
  · intro h
    unfold uuidMatch at h
    split at h
    · next r hch =>
        rcases Option.bind_eq_some.mp hch with ⟨a8, hc8, hl12⟩
        rcases Option.bind_eq_some.mp hc8 with ⟨a7, hc7, hd4⟩
        rcases Option.bind_eq_some.mp hc7 with ⟨a6, hc6, hh4c⟩
        rcases Option.bind_eq_some.mp hc6 with ⟨a5, hc5, hd3⟩
        rcases Option.bind_eq_some.mp hc5 with ⟨a4, hc4, hh4b⟩
        rcases Option.bind_eq_some.mp hc4 with ⟨a3, hc3, hd2⟩
        rcases Option.bind_eq_some.mp hc3 with ⟨a2, hc2, hh4a⟩
        rcases Option.bind_eq_some.mp hc2 with ⟨a1, hh8, hd1⟩
        obtain ⟨g1, hs1, hl1, hx1⟩ := (takeHexLower_eq_some 8 s a1).mp hh8
        have ha1 := takeLit_eq_some.mp hd1
        obtain ⟨g2, hs2, hl2, hx2⟩ := (takeHexLower_eq_some 4 a2 a3).mp hh4a
        have ha3 := takeLit_eq_some.mp hd2
        obtain ⟨g3, hs3, hl3, hx3⟩ := (takeHexLower_eq_some 4 a4 a5).mp hh4b
        have ha5 := takeLit_eq_some.mp hd3
        obtain ⟨g4, hs4, hl4, hx4⟩ := (takeHexLower_eq_some 4 a6 a7).mp hh4c
        have ha7 := takeLit_eq_some.mp hd4
        obtain ⟨g5, hs5, hl5, hx5⟩ := (takeHexLower_eq_some 12 a8 r).mp hl12
        have hr : r = [] := by simpa using h
        refine ⟨g1, g2, g3, g4, g5, ?_, hl1, hl2, hl3, hl4, hl5, hx1, hx2, hx3, hx4, hx5⟩
        rw [hs1, ha1, hs2, ha3, hs3, ha5, hs4, ha7, hs5, hr]
        simp
    · exact absurd h (by simp)
  · rintro ⟨g1, g2, g3, g4, g5, hs, l1, l2, l3, l4, l5, x1, x2, x3, x4, x5⟩
    subst hs
    unfold uuidMatch
    have e1 : takeHexLower 8 (g1 ++ '-' :: (g2 ++ '-' :: (g3 ++ '-' :: (g4 ++ '-' :: g5))))
        = some ('-' :: (g2 ++ '-' :: (g3 ++ '-' :: (g4 ++ '-' :: g5)))) :=
      (takeHexLower_eq_some _ _ _).mpr ⟨g1, rfl, l1, x1⟩
    have e2 : takeHexLower 4 (g2 ++ '-' :: (g3 ++ '-' :: (g4 ++ '-' :: g5)))
        = some ('-' :: (g3 ++ '-' :: (g4 ++ '-' :: g5))) :=
      (takeHexLower_eq_some _ _ _).mpr ⟨g2, rfl, l2, x2⟩
    have e3 : takeHexLower 4 (g3 ++ '-' :: (g4 ++ '-' :: g5))
        = some ('-' :: (g4 ++ '-' :: g5)) :=
      (takeHexLower_eq_some _ _ _).mpr ⟨g3, rfl, l3, x3⟩
    have e4 : takeHexLower 4 (g4 ++ '-' :: g5) = some ('-' :: g5) :=
      (takeHexLower_eq_some _ _ _).mpr ⟨g4, rfl, l4, x4⟩
    have e5 : takeHexLower 12 g5 = some [] :=
      (takeHexLower_eq_some _ _ _).mpr ⟨g5, by simp, l5, x5⟩
    rw [e1]
    simp only [Option.some_bind]
    rw [takeLit_cons]
    simp only [Option.some_bind]
    rw [e2]
    simp only [Option.some_bind]
    rw [takeLit_cons]
    simp only [Option.some_bind]
    rw [e3]
    simp only [Option.some_bind]
    rw [takeLit_cons]
    simp only [Option.some_bind]
    rw [e4]
    simp only [Option.some_bind]
    rw [takeLit_cons]
    simp only [Option.some_bind]
    rw [e5]
    rfl

theorem macMatch_iff (s : List Char) : macMatch s = true ↔ specMac s := by
  constructor
  · intro h
    unfold macMatch at h
    split at h
    · next r hch =>
        rcases Option.bind_eq_some.mp hch with ⟨c13, hc13, hhx6⟩
        rcases Option.bind_eq_some.mp hc13 with ⟨c12, hc12, hdd6⟩
        rcases Option.bind_eq_some.mp hc12 with ⟨c11, hc11, hhx5⟩
        rcases Option.bind_eq_some.mp hc11 with ⟨c10, hc10, hdd5⟩
        rcases Option.bind_eq_some.mp hc10 with ⟨c9, hc9, hhx4⟩
        rcases Option.bind_eq_some.mp hc9 with ⟨c8, hc8, hdd4⟩
        rcases Option.bind_eq_some.mp hc8 with ⟨c7, hc7, hhx3⟩
        rcases Option.bind_eq_some.mp hc7 with ⟨c6, hc6, hdd3⟩
        rcases Option.bind_eq_some.mp hc6 with ⟨c5, hc5, hhx2⟩
        rcases Option.bind_eq_some.mp hc5 with ⟨c4, hc4, hdd2⟩
        rcases Option.bind_eq_some.mp hc4 with ⟨c3, hc3, hhx1⟩
        rcases Option.bind_eq_some.mp hc3 with ⟨c2, hc2, hdd1⟩
        rcases Option.bind_eq_some.mp hc2 with ⟨c1, hz0, hz1⟩
        have hs0 := takeLit_eq_some.mp hz0
        have hs1 := takeLit_eq_some.mp hz1
        have hs2 := takeLit_eq_some.mp hdd1
        obtain ⟨o1, ho1, hl1, hxo1⟩ := (takeHexLower_eq_some 2 c3 c4).mp hhx1
        have hs4 := takeLit_eq_some.mp hdd2
        obtain ⟨o2, ho2, hl2, hxo2⟩ := (takeHexLower_eq_some 2 c5 c6).mp hhx2
        have hs6 := takeLit_eq_some.mp hdd3
        obtain ⟨o3, ho3, hl3, hxo3⟩ := (takeHexLower_eq_some 2 c7 c8).mp hhx3
        have hs8 := takeLit_eq_some.mp hdd4
        obtain ⟨o4, ho4, hl4, hxo4⟩ := (takeHexLower_eq_some 2 c9 c10).mp hhx4
        have hs10 := takeLit_eq_some.mp hdd5
        obtain ⟨o5, ho5, hl5, hxo5⟩ := (takeHexLower_eq_some 2 c11 c12).mp hhx5
        have hs12 := takeLit_eq_some.mp hdd6
        obtain ⟨o6, ho6, hl6, hxo6⟩ := (takeHexLower_eq_some 2 c13 r).mp hhx6
        have hr : r = [] := by simpa using h
        refine ⟨o1, o2, o3, o4, o5, o6, ?_, hl1, hl2, hl3, hl4, hl5, hl6,
          hxo1, hxo2, hxo3, hxo4, hxo5, hxo6⟩
        rw [hs0, hs1, hs2, ho1, hs4, ho2, hs6, ho3, hs8, ho4, hs10, ho5, hs12, ho6, hr]
        simp
    · exact absurd h (by simp)
  · rintro ⟨o1, o2, o3, o4, o5, o6, hs, l1, l2, l3, l4, l5, l6, x1, x2, x3, x4, x5, x6⟩
    subst hs
    unfold macMatch
    have e1 : takeHexLower 2
        (o1 ++ '-' :: (o2 ++ '-' :: (o3 ++ '-' :: (o4 ++ '-' :: (o5 ++ '-' :: o6)))))
        = some ('-' :: (o2 ++ '-' :: (o3 ++ '-' :: (o4 ++ '-' :: (o5 ++ '-' :: o6))))) :=
      (takeHexLower_eq_some _ _ _).mpr ⟨o1, rfl, l1, x1⟩
    have e2 : takeHexLower 2 (o2 ++ '-' :: (o3 ++ '-' :: (o4 ++ '-' :: (o5 ++ '-' :: o6))))
        = some ('-' :: (o3 ++ '-' :: (o4 ++ '-' :: (o5 ++ '-' :: o6)))) :=
      (takeHexLower_eq_some _ _ _).mpr ⟨o2, rfl, l2, x2⟩
    have e3 : takeHexLower 2 (o3 ++ '-' :: (o4 ++ '-' :: (o5 ++ '-' :: o6)))
        = some ('-' :: (o4 ++ '-' :: (o5 ++ '-' :: o6))) :=
      (takeHexLower_eq_some _ _ _).mpr ⟨o3, rfl, l3, x3⟩
    have e4 : takeHexLower 2 (o4 ++ '-' :: (o5 ++ '-' :: o6))
        = some ('-' :: (o5 ++ '-' :: o6)) :=
      (takeHexLower_eq_some _ _ _).mpr ⟨o4, rfl, l4, x4⟩
    have e5 : takeHexLower 2 (o5 ++ '-' :: o6) = some ('-' :: o6) :=
      (takeHexLower_eq_some _ _ _).mpr ⟨o5, rfl, l5, x5⟩
    have e6 : takeHexLower 2 o6 = some [] :=
      (takeHexLower_eq_some _ _ _).mpr ⟨o6, by simp, l6, x6⟩
    rw [takeLit_cons]
    simp only [Option.some_bind]
    rw [takeLit_cons]
    simp only [Option.some_bind]
    rw [takeLit_cons]
    simp only [Option.some_bind]
    rw [e1]
    simp only [Option.some_bind]
    rw [takeLit_cons]
    simp only [Option.some_bind]
    rw [e2]
    simp only [Option.some_bind]
    rw [takeLit_cons]
    simp only [Option.some_bind]
    rw [e3]
    simp only [Option.some_bind]
    rw [takeLit_cons]
    simp only [Option.some_bind]
    rw [e4]
    simp only [Option.some_bind]
    rw [takeLit_cons]
    simp only [Option.some_bind]
    rw [e5]
    simp only [Option.some_bind]
    rw [takeLit_cons]
    simp only [Option.some_bind]
    rw [e6]
    rfl

theorem isPrefixOf_append_self : ∀ l r : List Char, l.isPrefixOf (l ++ r) = true := by
  intro l r
  induction l with
  | nil => simp [List.isPrefixOf]
  | cons c cs ih => simpa [List.isPrefixOf] using ih

theorem stripPxePrefix_append (rest : List Char) :
    stripPxePrefix ("pxelinux.cfg/".data ++ rest) = some rest := by
  unfold stripPxePrefix
  rw [if_neg, if_pos (isPrefixOf_append_self _ rest)]
  · rw [show (13 : Nat) = ("pxelinux.cfg/".data).length from by decide, List.drop_left]
  · intro heq
    have := congrArg List.length heq
    simp at this

/-- C1 (amended): a path with the pxelinux.cfg directory prefix is
classified as a configuration request exactly when the remainder matches
one of the three identifier patterns (canonical lowercase UUID,
01-prefixed hyphen-separated lowercase MAC octets, or 1 to 8 uppercase
hex digits); when all three patterns fail the result is Ok(false) and the
request proceeds as a file request (InvalidRequestPath is reserved for
non-UTF-8 paths, which the text model cannot express); a path without the
prefix, such as "vmlinuz", is a file request. -/
theorem C1_path_classification (rest : List Char) :
    is_pxe_config_path ("pxelinux.cfg/".data ++ rest)
        = Except.ok (uuidMatch rest || macMatch rest || ipMatch rest) ∧
    (uuidMatch rest = true ↔ specUuid rest) ∧
    (macMatch rest = true ↔ specMac rest) ∧
    (ipMatch rest = true ↔ specIp rest) ∧
    is_pxe_config_path "vmlinuz".data = Except.ok false := by
  refine ⟨?_, uuidMatch_iff rest, macMatch_iff rest, ipMatch_iff rest, rfl⟩
  unfold is_pxe_config_path
  rw [stripPxePrefix_append]

/-- Counterexample for C1 as stated: the request path
"pxelinux.cfg/not-a-valid-id" (prefix present, remainder matching none of
the three patterns) is answered with FileNotFound after a file lookup,
not with the InvalidRequestPath error the claim requires
(is_pxe_config_path returns Ok(false) there, not Err). -/
theorem C1_invalid_remainder_counterexample :
    tftp_get fs0 srv0 "pxelinux.cfg/not-a-valid-id".data
        = some (srv0, Except.error Error.FileNotFound) ∧
    is_pxe_config_path "pxelinux.cfg/not-a-valid-id".data = Except.ok false ∧
    Error.FileNotFound ≠ Error.InvalidRequestPath :=
  ⟨rfl, rfl, by decide⟩

end InstantNetboot
